import Mathlib

/-!
Verification development for the study intake engine
(worker/src/utils/engine.ts and worker/src/handlers/engine.ts).

The TypeScript source is shallowly embedded:
* JS numbers are modelled exactly by the type `Q` below: an integer
  numerator with a natural denominator, where denominator `0` encodes the
  non-finite values (`NaN`, `Infinity`, `-Infinity`).  Every place the
  source guards with `Number.isFinite` is modelled by the test `d ≠ 0`.
  IEEE rounding of decimal literals is abstracted away (values are exact).
* JS values (`unknown`) are the inductive `Val`; `undefined` and `null`
  are distinct constructors, objects are insertion-ordered string-keyed
  association lists, and a `Date` carries its epoch-millisecond value.
* Built-in string routines (`trim`, `split`, `Number(string)`,
  `Date.parse`) are implemented over character lists; `Number(string)`
  and `Date.parse` are modelled for decimal literals and ISO
  `YYYY-MM-DD` dates respectively, the formats the engine's data uses.
* The lazily memoising compute resolver is written in state-passing style
  with a structurally decreasing fuel counter; `computeDefinitions`
  supplies enough fuel, and fuel exhaustion is proved unreachable.
-/

/-- Exact JS number model: value `n / d`, with `d = 0` encoding the
non-finite doubles (`NaN`, `±Infinity`).  Arithmetic mirrors rational
arithmetic; denominators of operands multiply, so any operation on a
non-finite operand yields a non-finite result, as in IEEE arithmetic. -/
structure Q where
  n : Int
  d : Nat
deriving Repr, DecidableEq

def Q.ofInt (i : Int) : Q := ⟨i, 1⟩

def Q.ofNat (m : Nat) : Q := ⟨(m : Int), 1⟩

/-- `Number.isFinite` on the model: the denominator is non-zero. -/
def Q.isFinite (a : Q) : Bool := a.d ≠ 0

def Q.add (a b : Q) : Q := ⟨a.n * b.d + b.n * a.d, a.d * b.d⟩

def Q.sub (a b : Q) : Q := ⟨a.n * b.d - b.n * a.d, a.d * b.d⟩

def Q.mul (a b : Q) : Q := ⟨a.n * b.n, a.d * b.d⟩

/-- Division; dividing by a zero numerator gives denominator `0`,
i.e. a non-finite result, matching JS `x / 0`. -/
def Q.div (a b : Q) : Q :=
  if b.n < 0 then ⟨-(a.n * b.d), a.d * b.n.natAbs⟩
  else ⟨a.n * b.d, a.d * b.n.natAbs⟩

/-- JS `===` on numbers (value equality).  `NaN === NaN` is false, which
the `d ≠ 0` guards capture; the model conflates the non-finite values, so
`Infinity === Infinity` (true in JS) is abstracted to `false`. -/
def Q.beq (a b : Q) : Bool := a.d ≠ 0 && b.d ≠ 0 && a.n * b.d = b.n * a.d

/-- Numeric `<` (used only on finite values). -/
def Q.blt (a b : Q) : Bool := a.n * b.d < b.n * a.d

def Q.ble (a b : Q) : Bool := a.n * b.d ≤ b.n * a.d

/-- `Math.floor`. -/
def Q.floor (a : Q) : Int := Int.fdiv a.n a.d

/-- Truncation toward zero (JS `%` and `Math.trunc` round this way). -/
def Q.trunc (a : Q) : Int := Int.tdiv a.n a.d

/-- JS `%` (remainder with the sign of the dividend). -/
def Q.rem (a b : Q) : Q := a.sub (b.mul (Q.ofInt ((a.div b).trunc)))

/-- `Math.round`: floor of `x + 1/2` (our uses are non-negative). -/
def Q.round (a : Q) : Int := (a.add ⟨1, 2⟩).floor

/-- Interpretation of a finite `Q` as a rational, for algebraic proofs. -/
def Q.toRat (a : Q) : ℚ := (a.n : ℚ) / (a.d : ℚ)

/-- JS `unknown` values flowing through the engine.  Objects are
insertion-ordered association lists; `vDate` is a valid `Date` carrying
its epoch-millisecond timestamp (invalid dates do not occur in the
engine's data and are elided). -/
inductive Val where
  | vUndef
  | vNull
  | vBool (b : Bool)
  | vNum (q : Q)
  | vStr (s : String)
  | vArr (elems : List Val)
  | vObj (fields : List (String × Val))
  | vDate (epochMs : Int)
deriving Repr

/-- First-match lookup in a string-keyed record (JS property access). -/
def lookupField (l : List (String × Val)) (k : String) : Option Val :=
  match l with
  | [] => none
  | (k', v) :: rest => if k' = k then some v else lookupField rest k

def hasField (l : List (String × Val)) (k : String) : Bool :=
  match l with
  | [] => false
  | (k', _) :: rest => if k' = k then true else hasField rest k

/-- JS whitespace for `trim` (ASCII subset; Unicode spaces abstracted). -/
def isJsSpace (c : Char) : Bool :=
  c = ' ' || c = '\t' || c = '\n' || c = '\r' || c = '\x0b' || c = '\x0c'

def trimChars (cs : List Char) : List Char :=
  ((cs.dropWhile isJsSpace).reverse.dropWhile isJsSpace).reverse

/-- JS `String.prototype.trim`. -/
def jsTrim (s : String) : String := String.mk (trimChars s.data)

/-- JS `String.prototype.split` with a single-character separator:
`"".split(sep)` is `[""]`, and separators at the ends produce empty
pieces, exactly as in JS. -/
def splitChar (sep : Char) : List Char → List (List Char)
  | [] => [[]]
  | c :: rest =>
    let r := splitChar sep rest
    if c = sep then [] :: r
    else
      match r with
      | [] => [[c]]
      | h :: t => (c :: h) :: t

def jsSplit (s : String) (sep : Char) : List String :=
  (splitChar sep s.data).map String.mk

def isDigitChar (c : Char) : Bool := '0' ≤ c && c ≤ '9'

def digitVal (c : Char) : Nat := c.toNat - '0'.toNat

def natOfDigits (cs : List Char) : Nat :=
  cs.foldl (fun acc c => acc * 10 + digitVal c) 0

/-- Unsigned decimal literal: `digits`, `digits.`, `digits.digits` or
`.digits` (the forms `Number(string)` accepts besides signs; hex,
exponent and `Infinity` forms are abstracted to non-numbers). -/
def parseUnsignedDec (cs : List Char) : Option Q :=
  let ds := cs.takeWhile isDigitChar
  let rest := cs.dropWhile isDigitChar
  match rest with
  | [] => if ds.isEmpty then none else some ⟨(natOfDigits ds : Int), 1⟩
  | '.' :: fs =>
    if fs.all isDigitChar && !(ds.isEmpty && fs.isEmpty) then
      some ⟨(natOfDigits ds * 10 ^ fs.length + natOfDigits fs : Int), 10 ^ fs.length⟩
    else none
  | _ => none

/-- JS `Number(string)`: trims, the empty string is `0`, otherwise an
optionally signed decimal literal; `none` is `NaN`. -/
def jsStringToNumber (s : String) : Option Q :=
  match trimChars s.data with
  | [] => some ⟨0, 1⟩
  | '+' :: rest => parseUnsignedDec rest
  | '-' :: rest => (parseUnsignedDec rest).map (fun q => ⟨-q.n, q.d⟩)
  | cs => parseUnsignedDec cs

/-- Civil date to days since 1970-01-01 (proleptic Gregorian). -/
def daysFromCivil (y0 : Int) (m d : Nat) : Int :=
  let y : Int := if m ≤ 2 then y0 - 1 else y0
  let era : Int := Int.fdiv y 400
  let yoe : Int := y - era * 400
  let mp : Int := if m > 2 then (m : Int) - 3 else (m : Int) + 9
  let doy : Int := Int.fdiv (153 * mp + 2) 5 + (d : Int) - 1
  let doe : Int := yoe * 365 + Int.fdiv yoe 4 - Int.fdiv yoe 100 + doy
  era * 146097 + doe - 719468

/-- Days since 1970-01-01 to `(year, month, day)`. -/
def civilFromDays (z0 : Int) : Int × Nat × Nat :=
  let z : Int := z0 + 719468
  let era : Int := Int.fdiv z 146097
  let doe : Int := z - era * 146097
  let yoe : Int := Int.fdiv (doe - Int.fdiv doe 1460 + Int.fdiv doe 36524 - Int.fdiv doe 146096) 365
  let doy : Int := doe - (365 * yoe + Int.fdiv yoe 4 - Int.fdiv yoe 100)
  let mp : Int := Int.fdiv (5 * doy + 2) 153
  let d : Int := doy - Int.fdiv (153 * mp + 2) 5 + 1
  let m : Int := mp + (if mp < 10 then 3 else -9)
  (yoe + era * 400 + (if m ≤ 2 then 1 else 0), m.toNat, d.toNat)

def isLeapYear (y : Int) : Bool :=
  Int.emod y 4 = 0 && (Int.emod y 100 ≠ 0 || Int.emod y 400 = 0)

def daysInMonth (y : Int) (m : Nat) : Nat :=
  if m = 2 then (if isLeapYear y then 29 else 28)
  else if m = 4 || m = 6 || m = 9 || m = 11 then 30
  else 31

/-- JS `Date.parse`, modelled for ISO `YYYY-MM-DD` dates (the engine's
date format); such strings denote UTC midnight.  Other formats are
abstracted to unparseable.  Returns epoch milliseconds. -/
def jsDateParse (s : String) : Option Int :=
  match s.data with
  | [y1, y2, y3, y4, '-', m1, m2, '-', d1, d2] =>
    if [y1, y2, y3, y4, m1, m2, d1, d2].all isDigitChar then
      let y : Int := (natOfDigits [y1, y2, y3, y4] : Int)
      let m : Nat := natOfDigits [m1, m2]
      let d : Nat := natOfDigits [d1, d2]
      if 1 ≤ m && m ≤ 12 && 1 ≤ d && d ≤ daysInMonth y m then
        some (daysFromCivil y m d * 86400000)
      else none
    else none
  | _ => none

/-- `padStart(2, '0')`. -/
def pad2 (s : String) : String :=
  if s.length < 2 then "0" ++ s else s

def pad4 (s : String) : String :=
  String.mk (List.replicate (4 - s.length) '0') ++ s

/-- `YYYY-MM-DD` rendering of a civil date (`toISOString().slice(0,10)`,
for the in-range dates the engine produces). -/
def formatCivil (y : Int) (m d : Nat) : String :=
  pad4 (toString y) ++ "-" ++ pad2 (toString m) ++ "-" ++ pad2 (toString d)

/-- Canonical array-index property keys: `"0"`, `"1"`, … (JS array
index membership; non-canonical forms such as `"00"` are not indices). -/
def decodeArrIndex (s : String) : Option Nat :=
  match s.data with
  | [] => none
  | ['0'] => some 0
  | c :: rest =>
    if isDigitChar c && c ≠ '0' && rest.all isDigitChar then
      some (natOfDigits (c :: rest))
    else none

/-- One `reduce` step of `resolvePath`: JS `typeof current === 'object'`
admits objects and arrays (and excludes strings), `segment in current`
finds own properties — for arrays the canonical numeric indices and
`length` (prototype-chain properties of plain objects and `Date`s are
abstracted as absent). -/
def pathStep (current : Val) (segment : String) : Val :=
  match current with
  | .vObj l =>
    match lookupField l segment with
    | some v => v
    | none => .vUndef
  | .vArr l =>
    if segment = "length" then .vNum (Q.ofNat l.length)
    else
      match decodeArrIndex segment with
      | some i =>
        match l.get? i with
        | some v => v
        | none => .vUndef
      | none => .vUndef
  | _ => (.vUndef)

/-- `resolvePath` from `utils/engine.ts`: a `reduce` over the segments,
yielding `undefined` for any missing intermediate. -/
def resolvePath (target : Val) (path : List String) : Val :=
  path.foldl pathStep target

/-- The evaluation context: `answers`, `computed`, `metadata` records. -/
structure EvaluationContext where
  answers : List (String × Val)
  computed : List (String × Val)
  metadata : List (String × Val)

/-- `resolveVariable`: split on `.`, select the scope by the first
segment, walk the rest; unknown scopes yield `undefined`. -/
def resolveVariable (v : String) (context : EvaluationContext) : Val :=
  match jsSplit v '.' with
  | [] => .vUndef
  | scope :: pathParts =>
    if scope = "answers" then
      if pathParts.isEmpty then .vObj context.answers
      else resolvePath (.vObj context.answers) pathParts
    else if scope = "computed" then
      if pathParts.isEmpty then .vObj context.computed
      else resolvePath (.vObj context.computed) pathParts
    else if scope = "metadata" then
      if pathParts.isEmpty then .vObj context.metadata
      else resolvePath (.vObj context.metadata) pathParts
    else (.vUndef)

/-- `Operand`: `{var}`, `{value}`, or a bare literal. -/
inductive Operand where
  | var (s : String)
  | value (v : Val)
  | lit (v : Val)

/-- `resolveOperand`; `none` models an absent (`undefined`) operand. -/
def resolveOperand (operand : Option Operand) (context : EvaluationContext) : Val :=
  match operand with
  | none => .vUndef
  | some (.var s) => resolveVariable s context
  | some (.value v) => v
  | some (.lit v) => v

/-- JS `??` on operand slots (`expression.left ?? expression.value`):
skips an absent slot and a literal `null`. -/
def coalesceOperand (a b : Option Operand) : Option Operand :=
  match a with
  | none => b
  | some (.lit .vNull) => b
  | some o => some o

/-- Comparable keys produced by `toComparable`. -/
inductive Comparable where
  | num (q : Q)
  | str (s : String)
deriving Repr, DecidableEq

/-- `toComparable`: finite number → itself; string → numeric parse if
finite, else date parse (epoch ms), else the trimmed string; valid date
→ epoch ms; everything else `null` (`none`). -/
def toComparable (value : Val) : Option Comparable :=
  match value with
  | .vNum q => if q.isFinite then some (.num q) else none
  | .vStr s =>
    let trimmed := jsTrim s
    if trimmed.length = 0 then none
    else
      match jsStringToNumber trimmed with
      | some q => some (.num q)
      | none =>
        match jsDateParse trimmed with
        | some t => some (.num (Q.ofInt t))
        | none => some (.str trimmed)
  | .vDate t => some (.num (Q.ofInt t))
  | _ => none

/-- `hasValue` (the `exists` operator): not nullish, not an empty or
all-whitespace string, not an empty array. -/
def hasValue (value : Val) : Bool :=
  match value with
  | .vNull => false
  | .vUndef => false
  | .vStr s => (jsTrim s).length > 0
  | .vArr l => !l.isEmpty
  | _ => true

/-- JS `===`.  Primitives compare by value; objects, arrays and dates
compare by reference, which the model abstracts as unequal. -/
def jsStrictEq (a b : Val) : Bool :=
  match a, b with
  | .vUndef, .vUndef => true
  | .vNull, .vNull => true
  | .vBool x, .vBool y => x = y
  | .vNum x, .vNum y => x.beq y
  | .vStr x, .vStr y => x = y
  | _, _ => false

/-- JS `<` on the comparable keys: numbers numerically, strings
lexicographically, mixed pairs via `ToNumber` on the string (`NaN`
makes the comparison false). -/
def compLt (a b : Comparable) : Bool :=
  match a, b with
  | .num x, .num y => x.blt y
  | .str x, .str y => decide (x < y)
  | .num x, .str y =>
    match jsStringToNumber y with
    | some q => x.blt q
    | none => false
  | .str x, .num y =>
    match jsStringToNumber x with
    | some q => q.blt y
    | none => false

def compLe (a b : Comparable) : Bool :=
  match a, b with
  | .num x, .num y => x.ble y
  | .str x, .str y => decide (x < y) || x = y
  | .num x, .str y =>
    match jsStringToNumber y with
    | some q => x.ble q
    | none => false
  | .str x, .num y =>
    match jsStringToNumber x with
    | some q => q.ble y
    | none => false

def compGt (a b : Comparable) : Bool := compLt b a

def compGe (a b : Comparable) : Bool := compLe b a

/-- The ten comparison / containment / existence operators. -/
inductive Operator where
  | eq | ne | gt | ge | lt | le | inOp | notIn | between | existsOp
deriving Repr, DecidableEq

/- Rule expressions: `all` / `any` groups, negation, or an operator
leaf.  `op = none` models a leaf whose operator is not one of the ten
known operators (the evaluator's `default` branch). -/
mutual
/-- Rule expression trees (`all` / `any` groups, negation, operator
leaves). -/
inductive Expression where
  | all (children : ExpressionList)
  | any (children : ExpressionList)
  | not (child : Expression)
  | cond (op : Option Operator) (left right value min max : Option Operand)
inductive ExpressionList where
  | nil
  | cons (head : Expression) (tail : ExpressionList)
end

mutual
/-- The expression evaluator from `utils/engine.ts`. -/
def evaluateExpression (expression : Expression) (context : EvaluationContext) : Bool :=
  match expression with
  | .all children => evalAll children context
  | .any children => evalAny children context
  | .not child => !evaluateExpression child context
  | .cond op left right value min max =>
    let leftValue := resolveOperand (coalesceOperand left value) context
    let rightValue := resolveOperand right context
    match op with
    | some .existsOp => hasValue leftValue
    | some .eq => jsStrictEq leftValue rightValue
    | some .ne => !jsStrictEq leftValue rightValue
    | some .gt =>
      match toComparable leftValue, toComparable rightValue with
      | some lc, some rc => compGt lc rc
      | _, _ => false
    | some .ge =>
      match toComparable leftValue, toComparable rightValue with
      | some lc, some rc => compGe lc rc
      | _, _ => false
    | some .lt =>
      match toComparable leftValue, toComparable rightValue with
      | some lc, some rc => compLt lc rc
      | _, _ => false
    | some .le =>
      match toComparable leftValue, toComparable rightValue with
      | some lc, some rc => compLe lc rc
      | _, _ => false
    | some .inOp =>
      match rightValue with
      | .vArr l => l.any (fun item => jsStrictEq item leftValue)
      | _ => false
    | some .notIn =>
      match rightValue with
      | .vArr l => !l.any (fun item => jsStrictEq item leftValue)
      | _ => true
    | some .between =>
      let minValue := resolveOperand min context
      let maxValue := resolveOperand max context
      match toComparable leftValue, toComparable minValue, toComparable maxValue with
      | some c, some mn, some mx => compGe c mn && compLe c mx
      | _, _, _ => false
    | none => false

def evalAll (children : ExpressionList) (context : EvaluationContext) : Bool :=
  match children with
  | .nil => true
  | .cons h t => evaluateExpression h context && evalAll t context

def evalAny (children : ExpressionList) (context : EvaluationContext) : Bool :=
  match children with
  | .nil => false
  | .cons h t => evaluateExpression h context || evalAny t context
end

/-- Char-level `String.prototype.startsWith`. -/
def charsStartWith : List Char → List Char → Bool
  | _, [] => true
  | [], _ :: _ => false
  | c :: cs, p :: ps => c = p && charsStartWith cs ps

def jsStartsWith (s pat : String) : Bool := charsStartWith s.data pat.data

/-- Char-level `String.prototype.slice(k)`. -/
def jsDrop (s : String) (k : Nat) : String := String.mk (s.data.drop k)

/-- Match against `TIME_REGEX = /^\d{1,2}:\d{2}(:\d{2})?$/`, returning
`(hours, minutes, seconds?)` digit values on success. -/
def timeRegexMatch (cs : List Char) : Option (Nat × Nat × Option Nat) :=
  match cs with
  | [h1, ':', m1, m2] =>
    if [h1, m1, m2].all isDigitChar then
      some (digitVal h1, natOfDigits [m1, m2], none)
    else none
  | [h1, h2, ':', m1, m2] =>
    if [h1, h2, m1, m2].all isDigitChar then
      some (natOfDigits [h1, h2], natOfDigits [m1, m2], none)
    else none
  | [h1, ':', m1, m2, ':', s1, s2] =>
    if [h1, m1, m2, s1, s2].all isDigitChar then
      some (digitVal h1, natOfDigits [m1, m2], some (natOfDigits [s1, s2]))
    else none
  | [h1, h2, ':', m1, m2, ':', s1, s2] =>
    if [h1, h2, m1, m2, s1, s2].all isDigitChar then
      some (natOfDigits [h1, h2], natOfDigits [m1, m2], some (natOfDigits [s1, s2]))
    else none
  | _ => none

/-- `parseTimeToMinutes`: finite numbers pass through as minutes; a
`Date` contributes its (UTC-abstracted) hours·60+minutes; a string must
match `TIME_REGEX`, seconds contributing fractional minutes; an object
with a finite numeric `minutes` property passes that through. -/
def parseTimeToMinutes (value : Val) : Option Q :=
  match value with
  | .vNum q => if q.isFinite then some q else none
  | .vDate t => some (Q.ofInt (Int.emod (Int.fdiv t 60000) 1440))
  | .vStr s =>
    match timeRegexMatch (jsTrim s).data with
    | none => none
    | some (h, m, secs) =>
      some (Q.add (Q.add (Q.mul (Q.ofNat h) ⟨60, 1⟩) (Q.ofNat m))
        (match secs with
         | some sec => Q.div (Q.ofNat sec) ⟨60, 1⟩
         | none => ⟨0, 1⟩))
  | .vObj l =>
    match lookupField l "minutes" with
    | some (.vNum q) => if q.isFinite then some q else none
    | _ => none
  | _ => none

/-- `formatMinutes`: normalise modulo 24·60 with JS `%`, then
`HH:MM` with `Math.floor` hours and `Math.round` minutes, each
zero-padded via `padStart(2, '0')`. -/
def formatMinutes (minutes : Q) : String :=
  let normalized := Q.rem (Q.add (Q.rem minutes ⟨1440, 1⟩) ⟨1440, 1⟩) ⟨1440, 1⟩
  let hours := (Q.div normalized ⟨60, 1⟩).floor
  let mins := (Q.rem normalized ⟨60, 1⟩).round
  pad2 (toString hours) ++ ":" ++ pad2 (toString mins)

def normalizeTime (value : Val) : Option String :=
  match parseTimeToMinutes value with
  | none => none
  | some minutes => some (formatMinutes minutes)

def midpointTime (start finish : Val) : Option String :=
  match parseTimeToMinutes start, parseTimeToMinutes finish with
  | some startMinutes, some endMinutes =>
    let diff := Q.sub endMinutes startMinutes
    let normalizedDiff := if diff.blt ⟨0, 1⟩ then Q.add diff ⟨1440, 1⟩ else diff
    let midpoint := Q.rem (Q.add startMinutes (Q.div normalizedDiff ⟨2, 1⟩)) ⟨1440, 1⟩
    some (formatMinutes midpoint)
  | _, _ => none

def durationMinutes (start finish : Val) : Option Q :=
  match parseTimeToMinutes start, parseTimeToMinutes finish with
  | some startMinutes, some endMinutes =>
    let diff := Q.sub endMinutes startMinutes
    some (if diff.blt ⟨0, 1⟩ then Q.add diff ⟨1440, 1⟩ else diff)
  | _, _ => none

/-- `addDaysToDate`: the day count must be a finite number, the date a
parseable string; UTC day arithmetic with `Math.trunc`-ed days, rendered
`YYYY-MM-DD`. -/
def addDaysToDate (dateValue daysValue : Val) : Option String :=
  match daysValue with
  | .vNum dq =>
    if !dq.isFinite then none
    else
      match dateValue with
      | .vStr s =>
        match jsDateParse s with
        | none => none
        | some ms =>
          let days := Int.fdiv ms 86400000
          match civilFromDays (days + dq.trunc) with
          | (y, m, d) => some (formatCivil y m d)
      | _ => none
  | _ => none

/-- JS `Number(value)` (`ToNumber`); `d = 0` results are `NaN`.
`Number` of a non-empty array (which JS routes through string
conversion) is abstracted to `NaN`. -/
def jsToNumber (value : Val) : Q :=
  match value with
  | .vNum q => q
  | .vNull => ⟨0, 1⟩
  | .vUndef => ⟨0, 0⟩
  | .vBool b => if b then ⟨1, 1⟩ else ⟨0, 1⟩
  | .vStr s =>
    match jsStringToNumber s with
    | some q => q
    | none => ⟨0, 0⟩
  | .vArr [] => ⟨0, 1⟩
  | .vArr (_ :: _) => ⟨0, 0⟩
  | .vObj _ => ⟨0, 0⟩
  | .vDate t => ⟨t, 1⟩

inductive ArithOp where
  | add | subtract | multiply | divide
deriving Repr, DecidableEq

/-- `applyArithmetic`: coerce every argument with `ToNumber`; if any is
non-finite the result is `null`; `add` sums from 0, `multiply` multiplies
from 1, `subtract` and `divide` fold from the head (`a-b-c`, `a/b/c`),
`divide` of no arguments is `null`. -/
def applyArithmetic (o : ArithOp) (values : List Val) : Option Q :=
  let numericValues := values.map jsToNumber
  if numericValues.any (fun q => !q.isFinite) then none
  else
    match o with
    | .add => some (numericValues.foldl Q.add ⟨0, 1⟩)
    | .subtract => some ((numericValues.drop 1).foldl Q.sub (numericValues.headD ⟨0, 1⟩))
    | .multiply => some (numericValues.foldl Q.mul ⟨1, 1⟩)
    | .divide =>
      match numericValues with
      | [] => none
      | h :: t => some (t.foldl Q.div h)

inductive ComputeFunction where
  | midpoint | duration | add_days | normalize_time
deriving Repr, DecidableEq

/- Compute expressions: `{var}`, `{value}`, function and arithmetic
nodes, and bare literals (argument lists as a mutual inductive). -/
mutual
/-- Compute expression trees. -/
inductive CExpr where
  | lit (v : Val)
  | var (s : String)
  | value (v : Val)
  | func (f : ComputeFunction) (args : CExprList)
  | op (o : ArithOp) (args : CExprList)
/-- Argument lists of a compute expression. -/
inductive CExprList where
  | nil
  | cons (head : CExpr) (tail : CExprList)
end

mutual
/-- Structural size of a compute expression (drives the fuel budget). -/
def exprSize : CExpr → Nat
  | .lit _ => 1
  | .var _ => 2
  | .value _ => 1
  | .func _ args => 1 + exprListSize args
  | .op _ args => 1 + exprListSize args
def exprListSize : CExprList → Nat
  | .nil => 1
  | .cons h t => 1 + exprSize h + exprListSize t
end

structure ComputeDefinition where
  key : String
  type : String
  definition : CExpr

/-- The memoisation state of one `computeDefinitions` run: the live
`computedValues` record and the `visiting` set (as a stack). -/
structure CState where
  computedValues : List (String × Val)
  visiting : List String

inductive ComputeErr where
  | cycle (key : String)
  | fuelExhausted
deriving Repr, DecidableEq

/-- `definitionMap.get`: the map is built by `Map.set` over the list, so
the last definition with a given key wins. -/
def definitionMapGet (definitions : List ComputeDefinition) (key : String) : Option ComputeDefinition :=
  match definitions with
  | [] => none
  | d :: rest =>
    match definitionMapGet rest key with
    | some r => some r
    | none => if d.key = key then some d else none

/-- JS property assignment on a record: update in place or append. -/
def setField (l : List (String × Val)) (k : String) (v : Val) : List (String × Val) :=
  match l with
  | [] => [(k, v)]
  | (k', v') :: rest => if k' = k then (k, v) :: rest else (k', v') :: setField rest k v

def valOfOptStr (o : Option String) : Val :=
  match o with
  | some s => .vStr s
  | none => .vNull

def valOfOptNum (o : Option Q) : Val :=
  match o with
  | some q => .vNum q
  | none => .vNull

/- The lazily memoising resolver (`resolveComputed` /
`evaluateComputeExpression` in the source).  The JS original recurses
through the closure; the embedding threads the state and a structurally
decreasing fuel counter, with `computeFuel` below proved sufficient. -/
mutual

/-- `resolveComputed(key)`: memoised value if present; unknown keys are
`undefined`; re-entering a currently-visiting key throws the cycle
error; otherwise evaluate the definition with `key` marked visiting,
then unmark and memoise. -/
def resolveComputed (definitions : List ComputeDefinition) (baseCtx : EvaluationContext)
    (fuel : Nat) (key : String) (st : CState) : Except ComputeErr (Val × CState) :=
  match fuel with
  | 0 => .error .fuelExhausted
  | fl + 1 =>
    if hasField st.computedValues key then
      .ok ((lookupField st.computedValues key).getD .vUndef, st)
    else
      match definitionMapGet definitions key with
      | none => .ok (.vUndef, st)
      | some definition =>
        if key ∈ st.visiting then .error (.cycle key)
        else
          match evalCompute definitions baseCtx fl definition.definition
              ⟨st.computedValues, key :: st.visiting⟩ with
          | .error e => .error e
          | .ok (value, st') =>
            .ok (value, ⟨setField st'.computedValues key value, st'.visiting.erase key⟩)

/-- `evaluateComputeExpression`: literals and `{value}` pass through;
`{var}` resolves against the live context, falling back to on-demand
resolution for missing `computed.*` paths; `func`/`op` nodes evaluate
all arguments left to right and dispatch. -/
def evalCompute (definitions : List ComputeDefinition) (baseCtx : EvaluationContext)
    (fuel : Nat) (expression : CExpr) (st : CState) : Except ComputeErr (Val × CState) :=
  match fuel with
  | 0 => .error .fuelExhausted
  | fl + 1 =>
    match expression with
    | .lit v => .ok (v, st)
    | .value v => .ok (v, st)
    | .var s =>
      let context : EvaluationContext := ⟨baseCtx.answers, st.computedValues, baseCtx.metadata⟩
      let value := resolveVariable s context
      if jsStartsWith s "computed." && (match value with | .vUndef => true | _ => false) then
        resolveComputed definitions baseCtx fl (jsDrop s 9) st
      else .ok (value, st)
    | .func fn args =>
      match evalComputeArgs definitions baseCtx fl args st with
      | .error e => .error e
      | .ok (argVals, st') =>
        let a0 := argVals.getD 0 .vUndef
        let a1 := argVals.getD 1 .vUndef
        match fn with
        | .normalize_time => .ok (valOfOptStr (normalizeTime a0), st')
        | .midpoint => .ok (valOfOptStr (midpointTime a0 a1), st')
        | .duration => .ok (valOfOptNum (durationMinutes a0 a1), st')
        | .add_days => .ok (valOfOptStr (addDaysToDate a0 a1), st')
    | .op o args =>
      match evalComputeArgs definitions baseCtx fl args st with
      | .error e => .error e
      | .ok (argVals, st') => .ok (valOfOptNum (applyArithmetic o argVals), st')

def evalComputeArgs (definitions : List ComputeDefinition) (baseCtx : EvaluationContext)
    (fuel : Nat) (args : CExprList) (st : CState) : Except ComputeErr (List Val × CState) :=
  match fuel with
  | 0 => .error .fuelExhausted
  | fl + 1 =>
    match args with
    | .nil => .ok ([], st)
    | .cons a rest =>
      match evalCompute definitions baseCtx fl a st with
      | .error e => .error e
      | .ok (v, st') =>
        match evalComputeArgs definitions baseCtx fl rest st' with
        | .error e => .error e
        | .ok (vs, st'') => .ok (v :: vs, st'')

end

/-- Fuel budget for one `computeDefinitions` run; `computeFuel_sufficient`
below shows it can never be exhausted. -/
def computeFuel (definitions : List ComputeDefinition) : Nat :=
  1 + definitions.foldl (fun acc d => acc + 2 + exprSize d.definition) 0

def computeLoop (definitions : List ComputeDefinition) (baseCtx : EvaluationContext)
    (fuel : Nat) (pending : List ComputeDefinition) (st : CState) : Except ComputeErr CState :=
  match pending with
  | [] => .ok st
  | d :: rest =>
    match resolveComputed definitions baseCtx fuel d.key st with
    | .error e => .error e
    | .ok (_, st') => computeLoop definitions baseCtx fuel rest st'

/-- `computeDefinitions`: start from a copy of `context.computed`,
resolve every definition in order, and return the accumulated record. -/
def computeDefinitions (definitions : List ComputeDefinition) (context : EvaluationContext) :
    Except ComputeErr (List (String × Val)) :=
  (computeLoop definitions context (computeFuel definitions) definitions
    ⟨context.computed, []⟩).map (fun st => st.computedValues)

/-- JS truthiness (`Boolean(x)`); the non-finite conflation makes every
`d = 0` number falsy like `NaN` (`±Infinity`, truthy in JS, does not
occur where the engine tests truthiness). -/
def jsTruthy (value : Val) : Bool :=
  match value with
  | .vUndef => false
  | .vNull => false
  | .vBool b => b
  | .vNum q => if q.d = 0 then false else q.n ≠ 0
  | .vStr s => !s.data.isEmpty
  | .vArr _ => true
  | .vObj _ => true
  | .vDate _ => true

def jsToLower (s : String) : String := String.mk (s.data.map Char.toLower)

/-- `parseOptionalJson`: nullish yields `undefined`.  The model's field
rows carry the JSON column already decoded to a `Val` (the source
`JSON.parse`s the stored text; that decode, and its failure fallback to
`undefined`, is abstracted into the row). -/
def parseOptionalJson (value : Option Val) : Option Val :=
  match value with
  | none => none
  | some .vNull => none
  | some .vUndef => none
  | some v => some v

/-- A `form_fields` row as the validator consumes it (`options_json` /
`validation_json` decoded, see `parseOptionalJson`). -/
structure FormFieldDefinition where
  key : String
  type : String
  required : Val
  options_json : Option Val
  validation_json : Option Val

structure ValidationIssue where
  key : String
  message : String
deriving Repr, DecidableEq

structure ValidationResult where
  valid : Bool
  errors : List ValidationIssue
deriving Repr, DecidableEq

/-- `typeof validation?.[k] === 'number'` extraction. -/
def validationNum (validation : Option Val) (k : String) : Option Q :=
  match validation with
  | some (.vObj l) =>
    match lookupField l k with
    | some (.vNum q) => some q
    | _ => none
  | _ => none

/-- `typeof validation?.pattern === 'string'` extraction. -/
def validationPattern (validation : Option Val) : Option String :=
  match validation with
  | some (.vObj l) =>
    match lookupField l "pattern" with
    | some (.vStr p) => some p
    | _ => none
  | _ => none

/- Zod's interpolated default issue messages are abstracted to fixed
strings; only `"Field is required"` is produced verbatim by the source. -/
def zodExpectedNumber : String := "Expected a number"

def zodExpectedBoolean : String := "Expected a boolean"

def zodExpectedString : String := "Expected a string"

def zodExpectedArray : String := "Expected an array"

def zodInvalidDate : String := "Invalid date format"

def zodInvalidTime : String := "Invalid time format"

def zodNumberTooSmall : String := "Number too small"

def zodNumberTooBig : String := "Number too big"

def zodStringTooShort : String := "String too short"

def zodStringTooLong : String := "String too long"

def zodPatternMismatch : String := "Invalid"

def selectOptionMessage : String := "Value must be one of the defined options"

def multiSelectOptionMessage : String := "All selections must be valid options"

/-- `buildFieldSchema` + `safeParse`, as the first failing check's
message (zod reports `errors[0]`).  `regexTest` is the semantics of
`new RegExp(pattern).test(value)`; a pattern whose regex construction
throws is ignored by the source, which corresponds to an oracle that
accepts everything for that pattern. -/
def fieldTypeIssue (regexTest : String → String → Bool) (ftype : String)
    (options validation : Option Val) (rawValue : Val) : Option String :=
  let t := jsToLower ftype
  if t = "number" then
    let q := jsToNumber rawValue
    if !q.isFinite then some zodExpectedNumber
    else if (match validationNum validation "min" with
             | some mn => q.blt mn
             | none => false) then some zodNumberTooSmall
    else if (match validationNum validation "max" with
             | some mx => mx.blt q
             | none => false) then some zodNumberTooBig
    else none
  else if t = "boolean" then
    match rawValue with
    | .vBool _ => none
    | _ => some zodExpectedBoolean
  else if t = "date" then
    match rawValue with
    | .vStr s => if (jsDateParse s).isSome then none else some zodInvalidDate
    | _ => some zodExpectedString
  else if t = "time" then
    match rawValue with
    | .vStr s => if (timeRegexMatch s.data).isSome then none else some zodInvalidTime
    | _ => some zodExpectedString
  else if t = "multi_select" then
    match rawValue with
    | .vArr items =>
      if items.any (fun it => match it with | .vStr _ => false | _ => true) then
        some zodExpectedString
      else
        match options with
        | some (.vArr opts) =>
          if items.all (fun it => opts.any (fun o => jsStrictEq o it)) then none
          else some multiSelectOptionMessage
        | _ => none
    | _ => some zodExpectedArray
  else
    match rawValue with
    | .vStr s =>
      if (match validationNum validation "minLength" with
          | some mn => (Q.ofNat s.length).blt mn
          | none => false) then some zodStringTooShort
      else if (match validationNum validation "maxLength" with
               | some mx => mx.blt (Q.ofNat s.length)
               | none => false) then some zodStringTooLong
      else if (match validationPattern validation with
               | some p => !regexTest p s
               | none => false) then some zodPatternMismatch
      else if t = "select" then
        match options with
        | some (.vArr opts) =>
          if opts.any (fun o => jsStrictEq o (.vStr s)) then none
          else some selectOptionMessage
        | _ => none
      else none
    | _ => some zodExpectedString

/-- Absence test used by `validateAnswers`:
`undefined`, `null`, or the empty string. -/
def isAbsentRaw (rawValue : Val) : Bool :=
  match rawValue with
  | .vUndef => true
  | .vNull => true
  | .vStr s => s.data.isEmpty
  | _ => false

/-- The per-field body of `validateAnswers`'s `forEach`: at most one
issue per field (the first failure). -/
def fieldCheck (regexTest : String → String → Bool) (answers : List (String × Val))
    (field : FormFieldDefinition) : Option ValidationIssue :=
  let required := jsTruthy field.required
  let rawValue := (lookupField answers field.key).getD .vUndef
  if !required && isAbsentRaw rawValue then none
  else if required && isAbsentRaw rawValue then some ⟨field.key, "Field is required"⟩
  else
    let options := parseOptionalJson field.options_json
    let validation := parseOptionalJson field.validation_json
    match fieldTypeIssue regexTest field.type options validation rawValue with
    | some msg => some ⟨field.key, msg⟩
    | none => none

/-- One `forEach` step of `validateAnswers`: push the field's issue, if
any. -/
def validateStep (regexTest : String → String → Bool) (answers : List (String × Val))
    (errs : List ValidationIssue) (field : FormFieldDefinition) : List ValidationIssue :=
  match fieldCheck regexTest answers field with
  | some issue => errs ++ [issue]
  | none => errs

/-- `validateAnswers`: every field is processed in order, each pushing
at most one issue. -/
def validateAnswers (regexTest : String → String → Bool) (fields : List FormFieldDefinition)
    (answers : List (String × Val)) : ValidationResult :=
  let errors := fields.foldl (validateStep regexTest answers) []
  ⟨errors.isEmpty, errors⟩

inductive RuleType where
  | eligibility | group_assignment | scheduling
deriving Repr, DecidableEq

/-- JS `String(x)`.  Decimal rendering of non-integral numbers and the
stringification of arrays, objects and dates are abstracted. -/
def jsToString (value : Val) : String :=
  match value with
  | .vUndef => "undefined"
  | .vNull => "null"
  | .vBool b => if b then "true" else "false"
  | .vNum q =>
    if q.d = 0 then "NaN"
    else if q.d = 1 then toString q.n
    else toString q.n ++ "/" ++ toString q.d
  | .vStr s => s
  | .vArr _ => "[array]"
  | .vObj _ => "[object Object]"
  | .vDate _ => "[date]"

/-- A stored rule-set `expression_json` payload, decoded into the views
`resolveRuleExpression` reads.  A slot is `none` when the key is absent
or null (what `??` skips).  `selfExpr` is the whole payload object
reinterpreted as an expression (the `?? payload` fallback — an object
without `all`/`any`/`not`/a known `op` evaluates through the
evaluator's `default` branch to `false`); `selfVal` is the payload as a
plain value (the plan fallback).  The JSON-text decode, and its failure
fallback `{}` (both `selfExpr` and `selfVal` empty), are abstracted. -/
structure RulePayload where
  whenExpr : Option Expression
  expressionField : Option Expression
  criteriaField : Option Expression
  planField : Option Val
  scheduleField : Option Val
  assignmentField : Option Val
  group_key : Option Val
  group_value : Option Val
  selfExpr : Expression
  selfVal : Val

structure RuleRow where
  id : Int
  rule_type : RuleType
  name : String
  status : String
  payload : RulePayload

/-- A `compute_definitions` row (`definition_json` decoded; the decode
failure fallback of `parseJsonValue(…, null)` is the literal `null`). -/
structure ComputeRow where
  key : String
  type : String
  status : String
  definition : CExpr

structure ResolvedRule where
  expression : Expression
  assignment : Option (String × String)
  plan : Option Val

/-- `resolveRuleExpression`: pick the predicate and the action payload
for a rule type.  Every branch produces an expression (the payload
itself is the last fallback), so the orchestrator's truthiness test on
it always passes. -/
def resolveRuleExpression (ruleType : RuleType) (payload : RulePayload) : ResolvedRule :=
  match ruleType with
  | .eligibility =>
    ⟨((payload.expressionField).orElse (fun _ => payload.criteriaField)).getD payload.selfExpr,
      none, none⟩
  | .group_assignment =>
    let expression := (((payload.whenExpr).orElse (fun _ => payload.expressionField)).orElse
      (fun _ => payload.criteriaField)).getD payload.selfExpr
    let assignmentPayload : Val := payload.assignmentField.getD
      (.vObj [("key", payload.group_key.getD .vUndef), ("value", payload.group_value.getD .vUndef)])
    match assignmentPayload with
    | .vObj l =>
      if hasField l "key" && hasField l "value" then
        ⟨expression,
          some (jsToString ((lookupField l "key").getD .vUndef),
            jsToString ((lookupField l "value").getD .vUndef)),
          none⟩
      else ⟨expression, none, none⟩
    | _ => ⟨expression, none, none⟩
  | .scheduling =>
    let expression := (((payload.whenExpr).orElse (fun _ => payload.expressionField)).orElse
      (fun _ => payload.criteriaField)).getD payload.selfExpr
    ⟨expression, none,
      some (((payload.planField).orElse (fun _ => payload.scheduleField)).getD payload.selfVal)⟩

structure SubmissionRow where
  study_id : String
  participant_id : String
  form_template_id : Int
  answers_json : List (String × Val)
  submitted_at : String

structure ComputedValueRow where
  submission_id : Int
  key : String
  value : Val
  computed_at : String

structure EvalDetail where
  rule_set_id : Int
  rule_type : RuleType
  name : String
  matched : Bool
  assignment : Option (String × String)
  plan : Option Val

structure RuleEvaluationRow where
  submission_id : Int
  rule_set_id : Int
  result_bool : Bool
  detail : EvalDetail
  evaluated_at : String

structure AssignmentRow where
  participant_id : String
  study_id : String
  group_key : String
  group_value : String
  assigned_at : String

structure SchedulePlanRow where
  participant_id : String
  study_id : String
  plan_plans : List (Int × Val)
  created_at : String

structure AuditRow where
  study_id : Option String
  participant_id : Option String
  action : String
  entity_type : String
  entity_id : Option Int
  detail_form_template_id : Int
  detail_computed_keys : List String
  detail_rule_count : Nat

/-- Everything `handleIntakeSubmit` inserts, in insertion order per
table. -/
structure Writes where
  submissions : List SubmissionRow
  computedValues : List ComputedValueRow
  ruleEvaluations : List RuleEvaluationRow
  assignments : List AssignmentRow
  schedulePlans : List SchedulePlanRow
  audits : List AuditRow

def emptyWrites : Writes := ⟨[], [], [], [], [], []⟩

/-- The success response envelope (the `submission` sub-object is
represented by its `id`; its other fields echo the request). -/
structure Envelope where
  submission_id : Option Int
  answers : List (String × Val)
  computed : List (String × Val)
  rule_evaluations : List EvalDetail
  assignments : List (Int × String × String)
  schedule_plan : Option (List (Int × Val))

inductive HandlerResponse where
  | templateNotFound
  | validationFailed (errors : List ValidationIssue)
  | errorResponse (message : String)
  | success (envelope : Envelope)

/-- The rows `handleIntakeSubmit` reads for one study (its SQL `WHERE
status = 'published'` filters appear in the handler body). -/
structure EngineDb where
  templateFound : Bool
  fields : List FormFieldDefinition
  computeRows : List ComputeRow
  rules : List RuleRow

structure IntakeBody where
  form_template_id : Int
  answers : List (String × Val)
  metadata : Option (List (String × Val))

/-- JS object spread `{...base, ...extra}`. -/
def mergeRecords (base extra : List (String × Val)) : List (String × Val) :=
  extra.foldl (fun acc p => setField acc p.1 p.2) base

def computeErrMessage (e : ComputeErr) : String :=
  match e with
  | .cycle key => "Circular compute dependency detected for " ++ key
  | .fuelExhausted => "compute fuel exhausted"

/-- The published compute definitions the handler consumes (the SQL
`WHERE status = 'published'` filter plus the row decode). -/
def publishedComputeDefinitionsList (db : EngineDb) : List ComputeDefinition :=
  (db.computeRows.filter (fun r => r.status = "published")).map
    (fun r => ⟨r.key, r.type, r.definition⟩)

/-- The published rule sets the handler consumes. -/
def publishedRules (db : EngineDb) : List RuleRow :=
  db.rules.filter (fun r => r.status = "published")

/-- The metadata record of one intake: base entries spread with the
request's `metadata` (`submission_id` is the fresh row id, never null
with the store present). -/
def intakeMetadata (studyId participantId submissionTime : String) (freshId : Int)
    (body : IntakeBody) : List (String × Val) :=
  mergeRecords
    [("study_id", .vStr studyId), ("participant_id", .vStr participantId),
     ("form_template_id", .vNum (Q.ofInt body.form_template_id)),
     ("submission_id", .vNum (Q.ofInt freshId)),
     ("submitted_at", .vStr submissionTime)]
    (body.metadata.getD [])

/-- Accumulator of the per-rule loop. -/
structure RuleAcc where
  evaluations : List EvalDetail
  assignments : List (Int × String × String)
  schedulePlans : List (Int × Val)
  ruleEvalRows : List RuleEvaluationRow

/-- One iteration of the rule loop of `handleIntakeSubmit`. -/
def processRule (ruleContext : EvaluationContext) (submissionTime : String)
    (submissionId : Option Int) (acc : RuleAcc) (r : RuleRow) : RuleAcc :=
  let resolved := resolveRuleExpression r.rule_type r.payload
  let matched := evaluateExpression resolved.expression ruleContext
  let assignmentOpt :=
    if matched && r.rule_type = RuleType.group_assignment then resolved.assignment else none
  let planOpt :=
    if matched && r.rule_type = RuleType.scheduling then resolved.plan else none
  let detail : EvalDetail := ⟨r.id, r.rule_type, r.name, matched, assignmentOpt, planOpt⟩
  { evaluations := acc.evaluations ++ [detail]
    assignments := acc.assignments ++
      (match assignmentOpt with
       | some (k, v) => [(r.id, k, v)]
       | none => [])
    schedulePlans := acc.schedulePlans ++
      (match planOpt with
       | some p => [(r.id, p)]
       | none => [])
    ruleEvalRows := acc.ruleEvalRows ++
      (match submissionId with
       | some sid => [⟨sid, r.id, matched, detail, submissionTime⟩]
       | none => []) }

/-- `handleIntakeSubmit`: fetch template and ordered fields, validate,
insert the submission, evaluate published compute definitions, insert
computed values, evaluate published rules, insert evaluations /
assignments / schedule plan, audit, and answer with the envelope.  The
wall clock and the fresh row id are parameters; a compute failure is
caught and returned as a 400 error response, after which the writes
performed so far (the submission row) remain. -/
def handleIntakeSubmit (regexTest : String → String → Bool) (studyId participantId : String)
    (submissionTime : String) (freshId : Int) (db : EngineDb) (body : IntakeBody) :
    HandlerResponse × Writes :=
  if !db.templateFound then (.templateNotFound, emptyWrites)
  else
    let validation := validateAnswers regexTest db.fields body.answers
    if !validation.valid then (.validationFailed validation.errors, emptyWrites)
    else
      let submissionId : Option Int := some freshId
      let submissionRow : SubmissionRow :=
        ⟨studyId, participantId, body.form_template_id, body.answers, submissionTime⟩
      let computeDefinitionsList := publishedComputeDefinitionsList db
      let metadata := intakeMetadata studyId participantId submissionTime freshId body
      let evaluationContext : EvaluationContext := ⟨body.answers, [], metadata⟩
      match computeDefinitions computeDefinitionsList evaluationContext with
      | .error e =>
        (.errorResponse (computeErrMessage e), { emptyWrites with submissions := [submissionRow] })
      | .ok computedValues =>
        let computedWrites : List ComputedValueRow :=
          match submissionId with
          | some sid =>
            computeDefinitionsList.map
              (fun d => ⟨sid, d.key, (lookupField computedValues d.key).getD .vUndef, submissionTime⟩)
          | none => []
        let ruleContext : EvaluationContext := ⟨body.answers, computedValues, metadata⟩
        let acc := (publishedRules db).foldl
          (processRule ruleContext submissionTime submissionId) ⟨[], [], [], []⟩
        let assignmentRows : List AssignmentRow := acc.assignments.map
          (fun t => ⟨participantId, studyId, t.2.1, t.2.2, submissionTime⟩)
        let schedulePlanPayload : Option (List (Int × Val)) :=
          if acc.schedulePlans.isEmpty then none else some acc.schedulePlans
        let planRows : List SchedulePlanRow :=
          if acc.schedulePlans.isEmpty then []
          else [⟨participantId, studyId, acc.schedulePlans, submissionTime⟩]
        let auditRow : AuditRow :=
          ⟨some studyId, some participantId, "intake_submitted", "form_submission", submissionId,
            body.form_template_id, computeDefinitionsList.map (fun d => d.key),
            acc.evaluations.length⟩
        (.success ⟨submissionId, body.answers, computedValues, acc.evaluations, acc.assignments,
            schedulePlanPayload⟩,
          ⟨[submissionRow], computedWrites, acc.ruleEvalRows, assignmentRows, planRows, [auditRow]⟩)

/-- Whether a rule's resolved predicate matches a context. -/
def ruleMatched (ruleContext : EvaluationContext) (r : RuleRow) : Bool :=
  evaluateExpression (resolveRuleExpression r.rule_type r.payload).expression ruleContext

/-- The plan value a scheduling payload resolves to
(`plan ?? schedule ?? payload`). -/
def schedulingPlanOf (p : RulePayload) : Val :=
  ((p.planField).orElse (fun _ => p.scheduleField)).getD p.selfVal

/-- Concrete inputs exercising `schedule_plan_count`: one published
scheduling rule whose `when` is the vacuous `all []`. -/
def c8Payload : RulePayload :=
  ⟨some (.all .nil), none, none, some (.vStr "planA"), none, none, none, none, .all .nil, .vNull⟩

def c8Db : EngineDb := ⟨true, [], [], [⟨42, .scheduling, "r", "published", c8Payload⟩]⟩

def c8Body : IntakeBody := ⟨1, [], none⟩

def c8Detail : EvalDetail := ⟨42, .scheduling, "r", true, none, some (.vStr "planA")⟩

def c8Env : Envelope := ⟨some 7, [], [], [c8Detail], [], some [(42, .vStr "planA")]⟩

def c8W : Writes :=
  ⟨[⟨"s", "p", 1, [], "t"⟩], [], [⟨7, 42, true, c8Detail, "t"⟩], [],
    [⟨"p", "s", [(42, .vStr "planA")], "t"⟩],
    [⟨some "s", some "p", "intake_submitted", "form_submission", some 7, 1, [], 1⟩]⟩

/-- Frame relation between the states before and after one engine step:
the visiting stack is restored, memoised entries are preserved with
their values, every new key carries a stored definition, and no
currently-visiting key gets written. -/
def FrameOk (defs : List ComputeDefinition) (st st' : CState) : Prop :=
  st'.visiting = st.visiting ∧
  (∀ key w, lookupField st.computedValues key = some w →
    lookupField st'.computedValues key = some w) ∧
  (∀ key, hasField st'.computedValues key = true →
    hasField st.computedValues key = true ∨ (definitionMapGet defs key).isSome = true) ∧
  (∀ key, key ∈ st.visiting → hasField st.computedValues key = false →
    hasField st'.computedValues key = false)

/-- Two definition lists agree for a run whose pre-existing computed
record is `base`: same stored keys, and equal bodies at every key not
already present in `base`. -/
def DefsAgree (defs defs' : List ComputeDefinition) (base : List (String × Val)) : Prop :=
  (∀ key, (definitionMapGet defs key).isSome = (definitionMapGet defs' key).isSome) ∧
  (∀ key, hasField base key = false →
    (definitionMapGet defs key).map (fun d => d.definition) =
      (definitionMapGet defs' key).map (fun d => d.definition))

/-- The live state still memoises every pre-existing key of `base`. -/
def SupOf (base : List (String × Val)) (st : CState) : Prop :=
  ∀ key, hasField base key = true → hasField st.computedValues key = true

def c10Defs : List ComputeDefinition :=
  [⟨"a", "number", .lit (.vNum (Q.ofNat 5))⟩, ⟨"b", "text", .var "computed.a"⟩]

def c10Ctx : EvaluationContext := ⟨[], [("a", .vStr "pre")], []⟩

def c10Cv : List (String × Val) := [("a", .vStr "pre"), ("b", .vStr "pre")]

/- Syntactic occurrence of a `{var: s}` node in a compute expression. -/
mutual
/-- Whether a compute expression contains the variable node `s`. -/
def containsVar : CExpr → String → Bool
  | .lit _, _ => false
  | .value _, _ => false
  | .var s, t => s == t
  | .func _ args, t => containsVarList args t
  | .op _ args, t => containsVarList args t
def containsVarList : CExprList → String → Bool
  | .nil, _ => false
  | .cons h rest, t => containsVar h t || containsVarList rest t
end

/-- A dependency cycle among stored compute definitions: a nonempty key
set, disjoint from the pre-existing computed record, each key dot-free
with a stored definition whose body mentions `computed.<next>` for some
next key of the set. -/
def IsComputeCycle (defs : List ComputeDefinition) (base : List (String × Val))
    (ks : List String) : Prop :=
  ks ≠ [] ∧
  (∀ k ∈ ks, hasField base k = false) ∧
  (∀ k ∈ ks, (∀ c ∈ k.data, c ≠ '.') ∧
    ∃ d, definitionMapGet defs k = some d ∧
      ∃ k', k' ∈ ks ∧ containsVar d.definition ("computed." ++ k') = true)

/-- Fuel still needed by a state: each definition not yet memoised and
not currently visiting can cost one `resolveComputed` step, one
visiting push, and its body's size. -/
def remainingCost (defs : List ComputeDefinition) (st : CState) : Nat :=
  (defs.map (fun d =>
    if d.key ∈ st.visiting ∨ hasField st.computedValues d.key = true then 0
    else 2 + exprSize d.definition)).sum

def c2Db : EngineDb :=
  ⟨true, [],
    [⟨"a", "number", "published", .var "computed.b"⟩,
     ⟨"b", "number", "published", .var "computed.a"⟩], []⟩

def c2Body : IntakeBody := ⟨1, [], none⟩

theorem Q.toRat_add (a b : Q) (ha : a.d ≠ 0) (hb : b.d ≠ 0) :
    (a.add b).toRat = a.toRat + b.toRat := by
  have ha' : ((a.d : ℚ)) ≠ 0 := Nat.cast_ne_zero.mpr ha
  have hb' : ((b.d : ℚ)) ≠ 0 := Nat.cast_ne_zero.mpr hb
  simp only [Q.add, Q.toRat]
  push_cast
  field_simp

theorem Q.toRat_sub (a b : Q) (ha : a.d ≠ 0) (hb : b.d ≠ 0) :
    (a.sub b).toRat = a.toRat - b.toRat := by
  have ha' : ((a.d : ℚ)) ≠ 0 := Nat.cast_ne_zero.mpr ha
  have hb' : ((b.d : ℚ)) ≠ 0 := Nat.cast_ne_zero.mpr hb
  simp only [Q.sub, Q.toRat]
  push_cast
  field_simp
  ring

theorem Q.blt_iff (a b : Q) (ha : a.d ≠ 0) (hb : b.d ≠ 0) :
    (a.blt b = true) ↔ a.toRat < b.toRat := by
  have ha' : (0 : ℚ) < ((a.d : ℚ)) := by exact_mod_cast Nat.pos_of_ne_zero ha
  have hb' : (0 : ℚ) < ((b.d : ℚ)) := by exact_mod_cast Nat.pos_of_ne_zero hb
  simp only [Q.blt, Q.toRat, decide_eq_true_eq]
  rw [div_lt_div_iff₀ ha' hb']
  constructor <;> intro h <;> exact_mod_cast h

theorem Q.beq_iff (a b : Q) (ha : a.d ≠ 0) (hb : b.d ≠ 0) :
    (a.beq b = true) ↔ a.toRat = b.toRat := by
  have ha' : ((a.d : ℚ)) ≠ 0 := Nat.cast_ne_zero.mpr ha
  have hb' : ((b.d : ℚ)) ≠ 0 := Nat.cast_ne_zero.mpr hb
  simp only [Q.beq, Q.toRat, Bool.and_eq_true, decide_eq_true_eq]
  rw [div_eq_div_iff ha' hb']
  constructor
  · rintro ⟨⟨h1, h2⟩, h3⟩
    exact_mod_cast h3
  · intro h
    refine ⟨⟨ha, hb⟩, ?_⟩
    exact_mod_cast h

theorem Q.toRat_eq_of_eq (a b : Q) (h : a = b) : a.toRat = b.toRat := by rw [h]

theorem Q.toRat_mul (a b : Q) : (a.mul b).toRat = a.toRat * b.toRat := by
  simp only [Q.mul, Q.toRat]
  push_cast
  rw [div_mul_div_comm]

theorem Q.toRat_div (a b : Q) : (a.div b).toRat = a.toRat / b.toRat := by
  by_cases hbn : b.n = 0
  · simp [Q.div, Q.toRat, hbn]
  · by_cases had : a.d = 0
    · simp only [Q.div, Q.toRat, had]
      rcases lt_or_ge b.n 0 with h | h
      · rw [if_pos h]
        simp
      · rw [if_neg (not_lt.mpr h)]
        simp
    · by_cases hbd : b.d = 0
      · simp only [Q.div, Q.toRat, hbd]
        rcases lt_or_ge b.n 0 with h | h
        · rw [if_pos h]
          simp
        · rw [if_neg (not_lt.mpr h)]
          simp
      · have had' : ((a.d : ℚ)) ≠ 0 := Nat.cast_ne_zero.mpr had
        have hbd' : ((b.d : ℚ)) ≠ 0 := Nat.cast_ne_zero.mpr hbd
        have hbn' : ((b.n : ℚ)) ≠ 0 := Int.cast_ne_zero.mpr hbn
        rcases lt_or_ge b.n 0 with h | h
        · have habs : ((b.n.natAbs : ℚ)) = -(b.n : ℚ) := by
            rw [show ((b.n.natAbs : ℚ)) = (((b.n.natAbs : ℤ) : ℚ)) from (Int.cast_natCast _).symm,
              show ((b.n.natAbs : ℤ)) = -b.n by omega]
            push_cast
            rfl
          simp only [Q.div, if_pos h, Q.toRat]
          push_cast
          rw [habs]
          field_simp
        · have habs : ((b.n.natAbs : ℚ)) = (b.n : ℚ) := by
            rw [show ((b.n.natAbs : ℚ)) = (((b.n.natAbs : ℤ) : ℚ)) from (Int.cast_natCast _).symm,
              show ((b.n.natAbs : ℤ)) = b.n by omega]
          simp only [Q.div, if_neg (not_lt.mpr h), Q.toRat]
          push_cast
          rw [habs]
          field_simp

theorem foldl_qadd (l : List Q) (init : Q) (hi : init.d ≠ 0) (hl : ∀ q ∈ l, q.d ≠ 0) :
    (l.foldl Q.add init).toRat = init.toRat + (l.map Q.toRat).sum ∧
      (l.foldl Q.add init).d ≠ 0 := by
  induction l generalizing init with
  | nil => simp [hi]
  | cons q rest ih =>
    have hq : q.d ≠ 0 := hl q (List.mem_cons_self q rest)
    have hi' : (init.add q).d ≠ 0 := by
      simp only [Q.add]
      exact Nat.mul_ne_zero hi hq
    have hrest : ∀ x ∈ rest, x.d ≠ 0 := fun x hx => hl x (List.mem_cons_of_mem q hx)
    obtain ⟨h1, h2⟩ := ih (init.add q) hi' hrest
    refine ⟨?_, h2⟩
    rw [List.foldl_cons, h1, Q.toRat_add init q hi hq, List.map_cons, List.sum_cons]
    ring

theorem foldl_qsub (l : List Q) (init : Q) (hi : init.d ≠ 0) (hl : ∀ q ∈ l, q.d ≠ 0) :
    (l.foldl Q.sub init).toRat = init.toRat - (l.map Q.toRat).sum ∧
      (l.foldl Q.sub init).d ≠ 0 := by
  induction l generalizing init with
  | nil => simp [hi]
  | cons q rest ih =>
    have hq : q.d ≠ 0 := hl q (List.mem_cons_self q rest)
    have hi' : (init.sub q).d ≠ 0 := by
      simp only [Q.sub]
      exact Nat.mul_ne_zero hi hq
    have hrest : ∀ x ∈ rest, x.d ≠ 0 := fun x hx => hl x (List.mem_cons_of_mem q hx)
    obtain ⟨h1, h2⟩ := ih (init.sub q) hi' hrest
    refine ⟨?_, h2⟩
    rw [List.foldl_cons, h1, Q.toRat_sub init q hi hq, List.map_cons, List.sum_cons]
    ring

theorem foldl_qmul (l : List Q) (init : Q) :
    (l.foldl Q.mul init).toRat = init.toRat * (l.map Q.toRat).prod := by
  induction l generalizing init with
  | nil => simp
  | cons q rest ih =>
    rw [List.foldl_cons, ih (init.mul q), Q.toRat_mul, List.map_cons, List.prod_cons]
    ring

theorem foldl_qdiv (l : List Q) (init : Q) :
    (l.foldl Q.div init).toRat = init.toRat / (l.map Q.toRat).prod := by
  induction l generalizing init with
  | nil => simp
  | cons q rest ih =>
    rw [List.foldl_cons, ih (init.div q), Q.toRat_div, List.map_cons, List.prod_cons, div_div]

/-- C3 counterexample: the claim says a `null` argument makes the
arithmetic result `null`, but JS `Number(null)` is `0`, so
`add(null)` evaluates to `0`, not `null`. -/
theorem applyArithmetic_null_counterexample :
    applyArithmetic ArithOp.add [Val.vNull] = some ⟨0, 1⟩ ∧
      applyArithmetic ArithOp.add [Val.vNull] ≠ none := by
  exact ⟨rfl, by decide⟩

/-- C3 (amended): the arithmetic operators yield `null` exactly when
some argument fails to coerce to a finite number under `ToNumber`
(`null` itself coerces to `0`); on all-finite arguments `add` sums from
0 left to right, `multiply` multiplies from 1, `subtract` and `divide`
fold from the head (`a−b−c = a−(b+c)`, `a/b/c = a/(b·c)`), and `divide`
of an empty list is `null`. -/
theorem applyArithmetic_spec (values : List Val) :
    (∀ o : ArithOp, ((values.map jsToNumber).any (fun q => !q.isFinite)) = true →
      applyArithmetic o values = none)
    ∧ ((∀ q ∈ values.map jsToNumber, q.isFinite = true) →
      (∃ r, applyArithmetic ArithOp.add values = some r ∧
        r.toRat = ((values.map jsToNumber).map Q.toRat).sum)
      ∧ (∃ r, applyArithmetic ArithOp.multiply values = some r ∧
        r.toRat = ((values.map jsToNumber).map Q.toRat).prod)
      ∧ (∀ v rest, values = v :: rest →
        ∃ r, applyArithmetic ArithOp.subtract values = some r ∧
          r.toRat = (jsToNumber v).toRat - ((rest.map jsToNumber).map Q.toRat).sum)
      ∧ (∀ v rest, values = v :: rest →
        ∃ r, applyArithmetic ArithOp.divide values = some r ∧
          r.toRat = (jsToNumber v).toRat / ((rest.map jsToNumber).map Q.toRat).prod)
      ∧ applyArithmetic ArithOp.divide [] = none) := by
  constructor
  · intro o h
    simp only [applyArithmetic, h]
    rfl
  · intro hfin
    have hfalse : ((values.map jsToNumber).any (fun q => !q.isFinite)) = false := by
      rw [List.any_eq_false]
      intro q hq
      simp [hfin q hq]
    have hfin' : ∀ q ∈ values.map jsToNumber, q.d ≠ 0 := by
      intro q hq
      have := hfin q hq
      simpa [Q.isFinite] using this
    refine ⟨?_, ?_, ?_, ?_, ?_⟩
    · obtain ⟨h1, _⟩ := foldl_qadd (values.map jsToNumber) ⟨0, 1⟩ (by decide) hfin'
      refine ⟨(values.map jsToNumber).foldl Q.add ⟨0, 1⟩, ?_, ?_⟩
      · simp only [applyArithmetic, hfalse]
        rfl
      · rw [h1]
        simp [Q.toRat]
    · refine ⟨(values.map jsToNumber).foldl Q.mul ⟨1, 1⟩, ?_, ?_⟩
      · simp only [applyArithmetic, hfalse]
        rfl
      · rw [foldl_qmul (values.map jsToNumber) ⟨1, 1⟩]
        simp [Q.toRat]
    · rintro v rest rfl
      have hv : (jsToNumber v).d ≠ 0 :=
        hfin' _ (by simp)
      have hrest : ∀ q ∈ rest.map jsToNumber, q.d ≠ 0 := by
        intro q hq
        exact hfin' q (by simp at hq ⊢; tauto)
      obtain ⟨h1, _⟩ := foldl_qsub (rest.map jsToNumber) (jsToNumber v) hv hrest
      refine ⟨(rest.map jsToNumber).foldl Q.sub (jsToNumber v), ?_, ?_⟩
      · simp only [applyArithmetic, hfalse]
        rfl
      · exact h1
    · rintro v rest rfl
      refine ⟨(rest.map jsToNumber).foldl Q.div (jsToNumber v), ?_, ?_⟩
      · simp only [applyArithmetic, hfalse]
        rfl
      · exact foldl_qdiv (rest.map jsToNumber) (jsToNumber v)
    · rfl

/-- Witness for `applyArithmetic_spec` at `[10, 3, 2]`. -/
theorem applyArithmetic_spec_witness :
    ∃ r, applyArithmetic ArithOp.subtract
        [Val.vNum ⟨10, 1⟩, Val.vNum ⟨3, 1⟩, Val.vNum ⟨2, 1⟩] = some r ∧
      r.toRat = (jsToNumber (Val.vNum ⟨10, 1⟩)).toRat -
        (([Val.vNum ⟨3, 1⟩, Val.vNum ⟨2, 1⟩].map jsToNumber).map Q.toRat).sum :=
  ((applyArithmetic_spec [Val.vNum ⟨10, 1⟩, Val.vNum ⟨3, 1⟩, Val.vNum ⟨2, 1⟩]).2
    (by decide)).2.2.1 _ _ rfl

theorem hasField_eq_isSome (l : List (String × Val)) (k : String) :
    hasField l k = (lookupField l k).isSome := by
  induction l with
  | nil => rfl
  | cons p rest ih =>
    simp only [hasField, lookupField]
    split
    · rfl
    · exact ih

theorem hasField_false_lookup (l : List (String × Val)) (k : String)
    (h : hasField l k = false) : lookupField l k = none := by
  rw [hasField_eq_isSome] at h
  exact Option.not_isSome_iff_eq_none.mp (by simp [h])

/-- C6 at the failing input: `normalize_time("10:59:30")` rounds the
fractional minutes to 60 without carrying, producing the non-canonical
`"10:60"`; normalising again yields `"11:00"`, so the function is not
idempotent. -/
theorem normalizeTime_not_idempotent :
    normalizeTime (Val.vStr "10:59:30") = some "10:60" ∧
    normalizeTime (valOfOptStr (normalizeTime (Val.vStr "10:59:30"))) = some "11:00" ∧
    normalizeTime (valOfOptStr (normalizeTime (Val.vStr "10:59:30"))) ≠
      normalizeTime (Val.vStr "10:59:30") := by
  refine ⟨rfl, rfl, by decide⟩

/-- C7 counterexample: `60` (minutes) and `"1:00"` are different inputs
that parse to the same minute value, so both durations are `0` and the
sum is `0`, not `24·60`. -/
theorem duration_sum_counterexample :
    Val.vNum ⟨60, 1⟩ ≠ Val.vStr "1:00" ∧
    durationMinutes (Val.vNum ⟨60, 1⟩) (Val.vStr "1:00") = some ⟨0, 1⟩ ∧
    durationMinutes (Val.vStr "1:00") (Val.vNum ⟨60, 1⟩) = some ⟨0, 1⟩ ∧
    Q.beq (Q.add ⟨0, 1⟩ ⟨0, 1⟩) ⟨1440, 1⟩ = false := by
  refine ⟨fun h => Val.noConfusion h, rfl, rfl, by decide⟩

theorem parseTime_finite (v : Val) (q : Q) (h : parseTimeToMinutes v = some q) :
    q.d ≠ 0 := by
  cases v with
  | vNum x =>
    simp only [parseTimeToMinutes] at h
    split at h
    · rename_i hfin
      cases h
      simpa [Q.isFinite] using hfin
    · cases h
  | vDate t =>
    simp only [parseTimeToMinutes] at h
    cases h
    simp [Q.ofInt]
  | vStr s =>
    simp only [parseTimeToMinutes] at h
    cases hm : timeRegexMatch (jsTrim s).data with
    | none => rw [hm] at h; cases h
    | some parts =>
      rw [hm] at h
      obtain ⟨hh, mm, secs⟩ := parts
      cases secs with
      | none =>
        cases h
        simp [Q.add, Q.mul, Q.div, Q.ofNat]
      | some sec =>
        cases h
        simp [Q.add, Q.mul, Q.div, Q.ofNat]
  | vObj l =>
    simp only [parseTimeToMinutes] at h
    cases hm : lookupField l "minutes" with
    | none => rw [hm] at h; cases h
    | some v' =>
      rw [hm] at h
      cases v' with
      | vNum q' =>
        have h2 : (if q'.isFinite = true then some q' else none) = some q := h
        split at h2
        · rename_i hfin
          cases h2
          simpa [Q.isFinite] using hfin
        · cases h2
      | vUndef => cases h
      | vNull => cases h
      | vBool b => cases h
      | vStr s => cases h
      | vArr l2 => cases h
      | vObj l2 => cases h
      | vDate t => cases h
  | vUndef => cases h
  | vNull => cases h
  | vBool b => cases h
  | vArr l => cases h

theorem Q.toRat_C0 : ((⟨0, 1⟩ : Q)).toRat = 0 := by simp [Q.toRat]

theorem Q.toRat_C1440 : ((⟨1440, 1⟩ : Q)).toRat = 1440 := by
  simp [Q.toRat]

/-- C7 (amended): whenever both durations are non-null and the two
inputs parse to different minute values, the durations sum to `24·60`.
(The claim's hypothesis `a ≠ b` on the raw inputs is not enough:
distinct inputs can parse to the same minutes, see the
counterexample.) -/
theorem duration_reverse_sum (a b : Val) (pa pb : Q)
    (hpa : parseTimeToMinutes a = some pa) (hpb : parseTimeToMinutes b = some pb)
    (hne : pa.beq pb = false) :
    ∃ d1 d2, durationMinutes a b = some d1 ∧ durationMinutes b a = some d2 ∧
      (d1.add d2).beq ⟨1440, 1⟩ = true := by
  have hfa : pa.d ≠ 0 := parseTime_finite a pa hpa
  have hfb : pb.d ≠ 0 := parseTime_finite b pb hpb
  have hd1 : (pb.sub pa).d ≠ 0 := by
    simp only [Q.sub]
    exact Nat.mul_ne_zero hfb hfa
  have hd2 : (pa.sub pb).d ≠ 0 := by
    simp only [Q.sub]
    exact Nat.mul_ne_zero hfa hfb
  have hd1' : ((pb.sub pa).add ⟨1440, 1⟩).d ≠ 0 := by
    simp only [Q.add]
    exact Nat.mul_ne_zero hd1 one_ne_zero
  have hd2' : ((pa.sub pb).add ⟨1440, 1⟩).d ≠ 0 := by
    simp only [Q.add]
    exact Nat.mul_ne_zero hd2 one_ne_zero
  have hone : ((⟨1440, 1⟩ : Q)).d ≠ 0 := one_ne_zero
  have hxy : pa.toRat ≠ pb.toRat := by
    intro hcontra
    rw [(Q.beq_iff pa pb hfa hfb).mpr hcontra] at hne
    exact Bool.noConfusion hne
  have hzero : ((⟨0, 1⟩ : Q)).d ≠ 0 := one_ne_zero
  simp only [durationMinutes, hpa, hpb]
  refine ⟨_, _, rfl, rfl, ?_⟩
  rcases lt_trichotomy pa.toRat pb.toRat with hlt | heq | hgt
  · have hc1 : (pb.sub pa).blt ⟨0, 1⟩ = false := by
      rw [Bool.eq_false_iff]
      intro hb
      have := (Q.blt_iff _ _ hd1 hzero).mp hb
      rw [Q.toRat_sub pb pa hfb hfa, Q.toRat_C0] at this
      linarith
    have hc2 : (pa.sub pb).blt ⟨0, 1⟩ = true := by
      rw [Q.blt_iff _ _ hd2 hzero, Q.toRat_sub pa pb hfa hfb, Q.toRat_C0]
      linarith
    rw [if_neg (show ¬((pb.sub pa).blt ⟨0, 1⟩ = true) by simp [hc1]),
      if_pos (show (pa.sub pb).blt ⟨0, 1⟩ = true from hc2)]
    rw [Q.beq_iff _ _ (by simp only [Q.add]; exact Nat.mul_ne_zero hd1 hd2') hone]
    rw [Q.toRat_add _ _ hd1 hd2', Q.toRat_sub pb pa hfb hfa,
      Q.toRat_add _ _ hd2 hone, Q.toRat_sub pa pb hfa hfb, Q.toRat_C1440]
    ring
  · exact absurd heq hxy
  · have hc1 : (pb.sub pa).blt ⟨0, 1⟩ = true := by
      rw [Q.blt_iff _ _ hd1 hzero, Q.toRat_sub pb pa hfb hfa, Q.toRat_C0]
      linarith
    have hc2 : (pa.sub pb).blt ⟨0, 1⟩ = false := by
      rw [Bool.eq_false_iff]
      intro hb
      have := (Q.blt_iff _ _ hd2 hzero).mp hb
      rw [Q.toRat_sub pa pb hfa hfb, Q.toRat_C0] at this
      linarith
    rw [if_pos (show (pb.sub pa).blt ⟨0, 1⟩ = true from hc1),
      if_neg (show ¬((pa.sub pb).blt ⟨0, 1⟩ = true) by simp [hc2])]
    rw [Q.beq_iff _ _ (by simp only [Q.add]; exact Nat.mul_ne_zero hd1' hd2) hone]
    rw [Q.toRat_add _ _ hd1' hd2, Q.toRat_add _ _ hd1 hone,
      Q.toRat_sub pb pa hfb hfa, Q.toRat_sub pa pb hfa hfb, Q.toRat_C1440]
    ring

/-- Witness for `duration_reverse_sum` at `"22:00"` / `"06:00"`. -/
theorem duration_reverse_sum_witness :
    ∃ d1 d2, durationMinutes (Val.vStr "22:00") (Val.vStr "06:00") = some d1 ∧
      durationMinutes (Val.vStr "06:00") (Val.vStr "22:00") = some d2 ∧
      (d1.add d2).beq ⟨1440, 1⟩ = true :=
  duration_reverse_sum (Val.vStr "22:00") (Val.vStr "06:00") ⟨1320, 1⟩ ⟨360, 1⟩
    (by decide) (by decide) (by decide)

/-- C5 counterexample: a numeric-string segment addressing an array
element resolves to that element, not to `undefined` — JS arrays are
objects whose canonical indices are `in`-visible properties. -/
theorem resolvePath_array_counterexample :
    resolvePath (.vObj [("x", .vArr [.vNum ⟨42, 1⟩])]) ["x", "0"] = .vNum ⟨42, 1⟩ ∧
      resolvePath (.vObj [("x", .vArr [.vNum ⟨42, 1⟩])]) ["x", "0"] ≠ .vUndef := by
  refine ⟨rfl, ?_⟩
  intro h
  rw [show resolvePath (.vObj [("x", .vArr [.vNum ⟨42, 1⟩])]) ["x", "0"] =
      Val.vNum ⟨42, 1⟩ from rfl] at h
  exact Val.noConfusion h

theorem resolvePath_vUndef (path : List String) : resolvePath .vUndef path = .vUndef := by
  induction path with
  | nil => rfl
  | cons s rest ih => exact ih

theorem jsSplit_scope (scope p : String) (hs : '.' ∉ scope.data) :
    jsSplit (scope ++ "." ++ p) '.' = scope :: jsSplit p '.' := by
  have hdata : (scope ++ "." ++ p).data = scope.data ++ '.' :: p.data := by
    rw [String.data_append, String.data_append, List.append_assoc]
    rfl
  simp only [jsSplit, hdata]
  have key : ∀ cs : List Char, '.' ∉ cs →
      splitChar '.' (cs ++ '.' :: p.data) = (cs ++ []) :: splitChar '.' p.data := by
    intro cs
    induction cs with
    | nil =>
      intro _
      simp [splitChar]
    | cons c rest ih =>
      intro hmem
      have hc : c ≠ '.' := fun hceq => hmem (by simp [hceq])
      have hrest : '.' ∉ rest := fun hr => hmem (by simp [hr])
      simp only [List.cons_append, splitChar]
      rw [show splitChar '.' (rest.append ('.' :: p.data)) =
        (rest ++ []) :: splitChar '.' p.data from ih hrest]
      simp [if_neg hc]
  rw [key scope.data hs]
  simp [jsSplit]

/-- C5 (amended): the resolver splits on `.`, selects the scope by the
first segment (unknown scopes are `undefined`), walks nested maps with
missing intermediates yielding `undefined`, and indexes arrays: a
canonical numeric-string segment resolves to the addressed element
(`undefined` out of range).  It is a total function by construction
("never throws"). -/
theorem resolvePath_spec :
    (∀ p context, resolveVariable ("answers" ++ "." ++ p) context =
        resolvePath (.vObj context.answers) (jsSplit p '.'))
    ∧ (∀ p context, resolveVariable ("computed" ++ "." ++ p) context =
        resolvePath (.vObj context.computed) (jsSplit p '.'))
    ∧ (∀ p context, resolveVariable ("metadata" ++ "." ++ p) context =
        resolvePath (.vObj context.metadata) (jsSplit p '.'))
    ∧ (∀ v context scope rest, jsSplit v '.' = scope :: rest →
        scope ≠ "answers" → scope ≠ "computed" → scope ≠ "metadata" →
        resolveVariable v context = .vUndef)
    ∧ (∀ l segment rest, hasField l segment = false →
        resolvePath (.vObj l) (segment :: rest) = .vUndef)
    ∧ (∀ elems segment rest i, decodeArrIndex segment = some i →
        resolvePath (.vArr elems) (segment :: rest) =
          resolvePath ((elems.get? i).getD .vUndef) rest) := by
  have hsc : ∀ cs : List Char, splitChar '.' cs ≠ [] := by
    intro cs
    cases cs with
    | nil => simp [splitChar]
    | cons c rest =>
      simp only [splitChar]
      split
      · simp
      · split <;> simp
  have hsplitNonempty : ∀ p : String, jsSplit p '.' ≠ [] := by
    intro p
    simp only [jsSplit]
    intro hcontra
    exact hsc p.data (List.map_eq_nil_iff.mp hcontra)
  have hscope : ∀ (p : String) (target : List (String × Val)),
      (if jsSplit p '.' = [] then Val.vObj target
        else resolvePath (.vObj target) (jsSplit p '.')) =
        resolvePath (.vObj target) (jsSplit p '.') := by
    intro p target
    rw [if_neg (hsplitNonempty p)]
  refine ⟨?_, ?_, ?_, ?_, ?_, ?_⟩
  · intro p context
    simp only [resolveVariable, jsSplit_scope "answers" p (by decide)]
    simp only [if_pos rfl, List.isEmpty_iff]
    exact hscope p context.answers
  · intro p context
    simp only [resolveVariable, jsSplit_scope "computed" p (by decide)]
    simp only [if_true, if_false, List.isEmpty_iff]
    exact hscope p context.computed
  · intro p context
    simp only [resolveVariable, jsSplit_scope "metadata" p (by decide)]
    simp only [if_true, if_false, List.isEmpty_iff]
    exact hscope p context.metadata
  · intro v context scope rest hsplit h1 h2 h3
    simp only [resolveVariable, hsplit]
    rw [if_neg h1, if_neg h2, if_neg h3]
  · intro l segment rest h
    have : pathStep (.vObj l) segment = .vUndef := by
      simp only [pathStep, hasField_false_lookup l segment h]
    simp only [resolvePath, List.foldl_cons, this]
    exact resolvePath_vUndef rest
  · intro elems segment rest i hdec
    have hlen : segment ≠ "length" := by
      intro hcontra
      rw [hcontra] at hdec
      exact Option.noConfusion ((by decide : decodeArrIndex "length" = none) ▸ hdec)
    have : pathStep (.vArr elems) segment = (elems.get? i).getD .vUndef := by
      simp only [pathStep, if_neg hlen, hdec]
      cases hgi : elems.get? i with
      | none => simp
      | some v => simp
    simp only [resolvePath, List.foldl_cons, this]

/-- Witness for `resolvePath_spec`'s conditional clauses at concrete
inputs. -/
theorem resolvePath_spec_witness :
    (jsSplit "other.x" '.' = "other" :: ["x"] ∧
      resolveVariable "other.x" ⟨[], [], []⟩ = .vUndef)
    ∧ (hasField [("a", Val.vNull)] "b" = false ∧
      resolvePath (.vObj [("a", Val.vNull)]) ["b", "c"] = .vUndef)
    ∧ (decodeArrIndex "1" = some 1 ∧
      resolvePath (.vArr [Val.vNull, Val.vStr "yes"]) ["1"] =
        resolvePath (([Val.vNull, Val.vStr "yes"].get? 1).getD .vUndef) []) := by
  refine ⟨⟨by decide, ?_⟩, ⟨by decide, ?_⟩, ⟨by decide, ?_⟩⟩
  · exact resolvePath_spec.2.2.2.1 "other.x" ⟨[], [], []⟩ "other" ["x"] (by decide)
      (by decide) (by decide) (by decide)
  · exact resolvePath_spec.2.2.2.2.1 [("a", Val.vNull)] "b" ["c"] (by decide)
  · exact resolvePath_spec.2.2.2.2.2 [Val.vNull, Val.vStr "yes"] "1" [] 1 (by decide)

theorem foldl_validateStep (regexTest : String → String → Bool)
    (answers : List (String × Val)) (l : List FormFieldDefinition)
    (acc : List ValidationIssue) :
    l.foldl (validateStep regexTest answers) acc =
      acc ++ l.filterMap (fieldCheck regexTest answers) := by
  induction l generalizing acc with
  | nil => simp
  | cons a rest ih =>
    cases hfa : fieldCheck regexTest answers a with
    | none => simp [List.foldl_cons, validateStep, hfa, ih, List.filterMap_cons]
    | some b => simp [List.foldl_cons, validateStep, hfa, ih, List.filterMap_cons]

/-- C9: `validateAnswers` collects exactly one optional issue per field,
in field order, with no short-circuiting between fields (the error list
is the `filterMap` of the per-field check); a non-required absent field
is skipped, and a required absent field yields `"Field is required"`. -/
theorem validateAnswers_spec (regexTest : String → String → Bool)
    (fields : List FormFieldDefinition) (answers : List (String × Val)) :
    validateAnswers regexTest fields answers =
      ⟨(fields.filterMap (fieldCheck regexTest answers)).isEmpty,
        fields.filterMap (fieldCheck regexTest answers)⟩
    ∧ (validateAnswers regexTest fields answers).errors.length ≤ fields.length
    ∧ (∀ field : FormFieldDefinition, jsTruthy field.required = false →
        isAbsentRaw ((lookupField answers field.key).getD .vUndef) = true →
        fieldCheck regexTest answers field = none)
    ∧ (∀ field : FormFieldDefinition, jsTruthy field.required = true →
        isAbsentRaw ((lookupField answers field.key).getD .vUndef) = true →
        fieldCheck regexTest answers field = some ⟨field.key, "Field is required"⟩) := by
  have hmain : validateAnswers regexTest fields answers =
      ⟨(fields.filterMap (fieldCheck regexTest answers)).isEmpty,
        fields.filterMap (fieldCheck regexTest answers)⟩ := by
    simp only [validateAnswers]
    rw [foldl_validateStep regexTest answers fields []]
    simp
  refine ⟨hmain, ?_, ?_, ?_⟩
  · rw [hmain]
    exact List.length_filterMap_le _ _
  · intro field hreq habs
    simp only [fieldCheck, hreq, habs]
    rfl
  · intro field hreq habs
    simp only [fieldCheck, hreq, habs]
    rfl

/-- Witness for `validateAnswers_spec` at one required and one optional
field with empty answers. -/
theorem validateAnswers_spec_witness :
    fieldCheck (fun _ _ => true) [] ⟨"age", "number", .vBool true, none, none⟩ =
      some ⟨"age", "Field is required"⟩ ∧
    fieldCheck (fun _ _ => true) [] ⟨"note", "text", .vBool false, none, none⟩ = none :=
  ⟨(validateAnswers_spec (fun _ _ => true) [] []).2.2.2
      ⟨"age", "number", .vBool true, none, none⟩ (by decide) (by decide),
    (validateAnswers_spec (fun _ _ => true) [] []).2.2.1
      ⟨"note", "text", .vBool false, none, none⟩ (by decide) (by decide)⟩

/-- C4 counterexample: the claim's ladder sends a whitespace string to
its numeric parse (`Number(" ") = 0`, finite), which would make
`" " < 1` evaluate to `0 < 1 = true`; the code instead coerces an empty
trimmed string to `null`, making the comparison `false`. -/
theorem comparison_empty_string_counterexample :
    evaluateExpression (.cond (some .lt) (some (.lit (.vStr " ")))
        (some (.lit (.vNum ⟨1, 1⟩))) none none none) ⟨[], [], []⟩ = false ∧
      jsToNumber (.vStr " ") = ⟨0, 1⟩ ∧
      Q.blt ⟨0, 1⟩ ⟨1, 1⟩ = true ∧
      toComparable (.vStr " ") = none := by
  exact ⟨rfl, rfl, by decide, rfl⟩

/-- C4 (amended): `>`, `>=`, `<`, `<=` coerce both operands through
`toComparable` — a finite number to itself, a date to its epoch
milliseconds, a string by trimming and then (empty → `null`; finite
numeric parse → the number; ISO-date parse → epoch milliseconds;
otherwise the trimmed string), and everything else to `null` — and if
either side coerces to `null` the comparison is `false`. -/
theorem comparison_coercion (context : EvaluationContext)
    (left right value min max : Option Operand) :
    (evaluateExpression (.cond (some .gt) left right value min max) context =
      match toComparable (resolveOperand (coalesceOperand left value) context),
        toComparable (resolveOperand right context) with
      | some lc, some rc => compGt lc rc
      | _, _ => false)
    ∧ (evaluateExpression (.cond (some .ge) left right value min max) context =
      match toComparable (resolveOperand (coalesceOperand left value) context),
        toComparable (resolveOperand right context) with
      | some lc, some rc => compGe lc rc
      | _, _ => false)
    ∧ (evaluateExpression (.cond (some .lt) left right value min max) context =
      match toComparable (resolveOperand (coalesceOperand left value) context),
        toComparable (resolveOperand right context) with
      | some lc, some rc => compLt lc rc
      | _, _ => false)
    ∧ (evaluateExpression (.cond (some .le) left right value min max) context =
      match toComparable (resolveOperand (coalesceOperand left value) context),
        toComparable (resolveOperand right context) with
      | some lc, some rc => compLe lc rc
      | _, _ => false)
    ∧ ((toComparable (resolveOperand (coalesceOperand left value) context) = none ∨
        toComparable (resolveOperand right context) = none) →
      evaluateExpression (.cond (some .gt) left right value min max) context = false ∧
      evaluateExpression (.cond (some .ge) left right value min max) context = false ∧
      evaluateExpression (.cond (some .lt) left right value min max) context = false ∧
      evaluateExpression (.cond (some .le) left right value min max) context = false)
    ∧ (∀ q, toComparable (.vNum q) = if q.isFinite then some (.num q) else none)
    ∧ (∀ t, toComparable (.vDate t) = some (.num (Q.ofInt t)))
    ∧ (∀ s, toComparable (.vStr s) =
      if (jsTrim s).length = 0 then none
      else
        match jsStringToNumber (jsTrim s) with
        | some q => some (.num q)
        | none =>
          match jsDateParse (jsTrim s) with
          | some t => some (.num (Q.ofInt t))
          | none => some (.str (jsTrim s)))
    ∧ toComparable .vUndef = none ∧ toComparable .vNull = none
    ∧ (∀ b, toComparable (.vBool b) = none)
    ∧ (∀ l, toComparable (.vArr l) = none)
    ∧ (∀ l, toComparable (.vObj l) = none) := by
  have hgt : evaluateExpression (.cond (some .gt) left right value min max) context =
      match toComparable (resolveOperand (coalesceOperand left value) context),
        toComparable (resolveOperand right context) with
      | some lc, some rc => compGt lc rc
      | _, _ => false := rfl
  have hge : evaluateExpression (.cond (some .ge) left right value min max) context =
      match toComparable (resolveOperand (coalesceOperand left value) context),
        toComparable (resolveOperand right context) with
      | some lc, some rc => compGe lc rc
      | _, _ => false := rfl
  have hlt : evaluateExpression (.cond (some .lt) left right value min max) context =
      match toComparable (resolveOperand (coalesceOperand left value) context),
        toComparable (resolveOperand right context) with
      | some lc, some rc => compLt lc rc
      | _, _ => false := rfl
  have hle : evaluateExpression (.cond (some .le) left right value min max) context =
      match toComparable (resolveOperand (coalesceOperand left value) context),
        toComparable (resolveOperand right context) with
      | some lc, some rc => compLe lc rc
      | _, _ => false := rfl
  refine ⟨hgt, hge, hlt, hle, ?_, fun q => rfl, fun t => rfl, fun s => rfl, rfl, rfl,
    fun b => rfl, fun l => rfl, fun l => rfl⟩
  intro hnone
  rw [hgt, hge, hlt, hle]
  rcases hnone with h | h
  · rw [h]
    cases toComparable (resolveOperand right context) <;> exact ⟨rfl, rfl, rfl, rfl⟩
  · rw [h]
    cases toComparable (resolveOperand (coalesceOperand left value) context) <;>
      exact ⟨rfl, rfl, rfl, rfl⟩

/-- Witness for `comparison_coercion`'s null-propagation clause. -/
theorem comparison_coercion_witness :
    toComparable (resolveOperand (coalesceOperand (some (.lit .vNull)) none) ⟨[], [], []⟩) =
      none ∧
    evaluateExpression (.cond (some .lt) (some (.lit .vNull)) (some (.lit (.vNum ⟨1, 1⟩)))
      none none none) ⟨[], [], []⟩ = false :=
  ⟨rfl, ((comparison_coercion ⟨[], [], []⟩ (some (.lit .vNull)) (some (.lit (.vNum ⟨1, 1⟩)))
    none none none).2.2.2.2.1 (Or.inl rfl)).2.2.1⟩

/-- C1: with the template found, a failed validation produces the
`ValidationFailed` response carrying the issue list and writes nothing
at all — no submission, computed value, rule evaluation, assignment,
schedule plan, or audit row; and a `FormSubmission` row is written iff
the template was found and validation succeeded. -/
theorem intake_validation_gate (regexTest : String → String → Bool)
    (studyId participantId submissionTime : String) (freshId : Int)
    (db : EngineDb) (body : IntakeBody) :
    (db.templateFound = true →
      (validateAnswers regexTest db.fields body.answers).valid = false →
      handleIntakeSubmit regexTest studyId participantId submissionTime freshId db body =
        (.validationFailed (validateAnswers regexTest db.fields body.answers).errors,
          emptyWrites))
    ∧ ((handleIntakeSubmit regexTest studyId participantId submissionTime freshId
          db body).2.submissions ≠ [] ↔
        db.templateFound = true ∧
          (validateAnswers regexTest db.fields body.answers).valid = true) := by
  constructor
  · intro htpl hval
    simp only [handleIntakeSubmit, htpl, hval]
    rfl
  · by_cases htpl : db.templateFound = true
    · by_cases hval : (validateAnswers regexTest db.fields body.answers).valid = true
      · simp only [handleIntakeSubmit, htpl, hval]
        cases hcd : computeDefinitions (publishedComputeDefinitionsList db)
            ⟨body.answers, [],
              intakeMetadata studyId participantId submissionTime freshId body⟩ with
        | error e => simp [htpl, hval]
        | ok cv => simp [htpl, hval]
      · have hval' : (validateAnswers regexTest db.fields body.answers).valid = false :=
          Bool.not_eq_true _ ▸ Bool.eq_false_iff.mpr hval
        simp [handleIntakeSubmit, htpl, hval', emptyWrites]
    · have htpl' : db.templateFound = false := Bool.eq_false_iff.mpr htpl
      simp [handleIntakeSubmit, htpl', emptyWrites]

/-- Witness for `intake_validation_gate` at a one-required-field form
with empty answers. -/
theorem intake_validation_gate_witness :
    (validateAnswers (fun _ _ => true)
      [⟨"age", "number", .vBool true, none, none⟩] []).valid = false ∧
    handleIntakeSubmit (fun _ _ => true) "study-001" "p-1" "T0" 1
        ⟨true, [⟨"age", "number", .vBool true, none, none⟩], [], []⟩ ⟨7, [], none⟩ =
      (.validationFailed [⟨"age", "Field is required"⟩], emptyWrites) := by
  refine ⟨by decide, ?_⟩
  exact ((intake_validation_gate (fun _ _ => true) "study-001" "p-1" "T0" 1
    ⟨true, [⟨"age", "number", .vBool true, none, none⟩], [], []⟩ ⟨7, [], none⟩).1
    rfl (by decide)).trans rfl

theorem processRule_schedulePlans (ctx : EvaluationContext) (t : String) (sid : Option Int)
    (acc : RuleAcc) (r : RuleRow) :
    (processRule ctx t sid acc r).schedulePlans =
      acc.schedulePlans ++
        (if ruleMatched ctx r && r.rule_type = RuleType.scheduling then
          [(r.id, schedulingPlanOf r.payload)]
        else []) := by
  by_cases hc : (ruleMatched ctx r && decide (r.rule_type = RuleType.scheduling)) = true
  · have hsch : r.rule_type = RuleType.scheduling := by
      have := (Bool.and_eq_true _ _).mp hc
      exact of_decide_eq_true this.2
    simp only [processRule, ruleMatched] at hc ⊢
    rw [if_pos hc]
    have hplan : (resolveRuleExpression r.rule_type r.payload).plan =
        some (schedulingPlanOf r.payload) := by
      rw [hsch]
      rfl
    rw [hplan]
    simp [hc]
  · simp only [processRule, ruleMatched] at hc ⊢
    rw [if_neg hc]
    simp [hc]

theorem foldl_processRule_schedulePlans (ctx : EvaluationContext) (t : String)
    (sid : Option Int) (rules : List RuleRow) (acc : RuleAcc) :
    (rules.foldl (processRule ctx t sid) acc).schedulePlans =
      acc.schedulePlans ++
        (rules.filter (fun r => ruleMatched ctx r && r.rule_type = RuleType.scheduling)).map
          (fun r => (r.id, schedulingPlanOf r.payload)) := by
  induction rules generalizing acc with
  | nil => simp
  | cons r rest ih =>
    rw [List.foldl_cons, ih, List.filter_cons]
    by_cases hc : (ruleMatched ctx r && decide (r.rule_type = RuleType.scheduling)) = true
    · rw [if_pos hc, processRule_schedulePlans]
      rw [if_pos hc]
      simp
    · rw [if_neg hc, processRule_schedulePlans]
      rw [if_neg hc]
      simp

/-- C8: on a successful intake, the envelope's `schedule_plan` is null
exactly when no published scheduling rule matched; when non-null its
`plans` list has exactly one entry per matched published scheduling
rule; and exactly one `SchedulePlan` row is inserted iff the list is
non-empty. -/
theorem schedule_plan_count (regexTest : String → String → Bool)
    (studyId participantId submissionTime : String) (freshId : Int)
    (db : EngineDb) (body : IntakeBody) (env : Envelope) (w : Writes)
    (h : handleIntakeSubmit regexTest studyId participantId submissionTime freshId db body =
      (.success env, w)) :
    ∃ cv, computeDefinitions (publishedComputeDefinitionsList db)
        ⟨body.answers, [], intakeMetadata studyId participantId submissionTime freshId body⟩ =
        .ok cv ∧
      ((∀ plans, env.schedule_plan = some plans →
        plans.length = ((publishedRules db).filter (fun r =>
          ruleMatched ⟨body.answers, cv,
            intakeMetadata studyId participantId submissionTime freshId body⟩ r &&
          r.rule_type = RuleType.scheduling)).length)
      ∧ (env.schedule_plan = none ↔
        ((publishedRules db).filter (fun r =>
          ruleMatched ⟨body.answers, cv,
            intakeMetadata studyId participantId submissionTime freshId body⟩ r &&
          r.rule_type = RuleType.scheduling)) = [])
      ∧ w.schedulePlans.length = (if env.schedule_plan.isNone then 0 else 1)) := by
  by_cases htpl : db.templateFound = true
  · by_cases hval : (validateAnswers regexTest db.fields body.answers).valid = true
    · simp only [handleIntakeSubmit, htpl, hval] at h
      cases hcd : computeDefinitions (publishedComputeDefinitionsList db)
          ⟨body.answers, [],
            intakeMetadata studyId participantId submissionTime freshId body⟩ with
      | error e =>
        rw [hcd] at h
        simp at h
      | ok cv =>
        rw [hcd] at h
        simp only [Bool.not_true, Bool.false_eq_true, if_false] at h
        injection h with h1 h2
        injection h1 with h3
        subst h2
        subst h3
        refine ⟨cv, rfl, ?_, ?_, ?_⟩
        all_goals
          have hsp : ((publishedRules db).foldl
              (processRule ⟨body.answers, cv,
                intakeMetadata studyId participantId submissionTime freshId body⟩
                submissionTime (some freshId)) ⟨[], [], [], []⟩).schedulePlans =
              ((publishedRules db).filter (fun r =>
                ruleMatched ⟨body.answers, cv,
                  intakeMetadata studyId participantId submissionTime freshId body⟩ r &&
                r.rule_type = RuleType.scheduling)).map
                (fun r => (r.id, schedulingPlanOf r.payload)) := by
            rw [foldl_processRule_schedulePlans]
            simp
        · intro plans hp
          simp only [hsp] at hp
          by_cases hL : (((publishedRules db).filter (fun r =>
              ruleMatched ⟨body.answers, cv,
                intakeMetadata studyId participantId submissionTime freshId body⟩ r &&
              r.rule_type = RuleType.scheduling)).map
              (fun r => (r.id, schedulingPlanOf r.payload))).isEmpty = true
          · rw [if_pos hL] at hp
            cases hp
          · rw [if_neg hL] at hp
            cases hp
            simp
        · simp only [hsp]
          by_cases hL : (((publishedRules db).filter (fun r =>
              ruleMatched ⟨body.answers, cv,
                intakeMetadata studyId participantId submissionTime freshId body⟩ r &&
              r.rule_type = RuleType.scheduling)).map
              (fun r => (r.id, schedulingPlanOf r.payload))).isEmpty = true
          · rw [if_pos hL]
            simp only [List.isEmpty_iff, List.map_eq_nil_iff] at hL
            simp [hL]
          · rw [if_neg hL]
            simp only [List.isEmpty_iff, List.map_eq_nil_iff] at hL
            simp [hL]
        · simp only [hsp]
          by_cases hL : (((publishedRules db).filter (fun r =>
              ruleMatched ⟨body.answers, cv,
                intakeMetadata studyId participantId submissionTime freshId body⟩ r &&
              r.rule_type = RuleType.scheduling)).map
              (fun r => (r.id, schedulingPlanOf r.payload))).isEmpty = true
          · rw [if_pos hL]
            split
            · rfl
            · rename_i hcond
              exact absurd hL hcond
          · rw [if_neg hL]
            split
            · rename_i hcond
              exact absurd hcond hL
            · rfl
    · exfalso
      have hval' : (validateAnswers regexTest db.fields body.answers).valid = false :=
        Bool.eq_false_iff.mpr hval
      simp [handleIntakeSubmit, htpl, hval'] at h
  · exfalso
    have htpl' : db.templateFound = false := Bool.eq_false_iff.mpr htpl
    simp [handleIntakeSubmit, htpl'] at h

theorem schedule_plan_count_witness :
    ∃ cv, computeDefinitions (publishedComputeDefinitionsList c8Db)
        ⟨c8Body.answers, [], intakeMetadata "s" "p" "t" 7 c8Body⟩ = .ok cv ∧
      ((∀ plans, c8Env.schedule_plan = some plans →
        plans.length = ((publishedRules c8Db).filter (fun r =>
          ruleMatched ⟨c8Body.answers, cv, intakeMetadata "s" "p" "t" 7 c8Body⟩ r &&
          r.rule_type = RuleType.scheduling)).length)
      ∧ (c8Env.schedule_plan = none ↔
        ((publishedRules c8Db).filter (fun r =>
          ruleMatched ⟨c8Body.answers, cv, intakeMetadata "s" "p" "t" 7 c8Body⟩ r &&
          r.rule_type = RuleType.scheduling)) = [])
      ∧ c8W.schedulePlans.length = (if c8Env.schedule_plan.isNone then 0 else 1)) :=
  schedule_plan_count (fun _ _ => false) "s" "p" "t" 7 c8Db c8Body c8Env c8W rfl

theorem lookupField_setField_self (l : List (String × Val)) (k : String) (v : Val) :
    lookupField (setField l k v) k = some v := by
  induction l with
  | nil => simp [setField, lookupField]
  | cons p rest ih =>
    obtain ⟨k', v'⟩ := p
    simp only [setField]
    by_cases hk : k' = k
    · rw [if_pos hk]
      simp [lookupField]
    · rw [if_neg hk]
      simp only [lookupField, if_neg hk]
      exact ih

theorem lookupField_setField_ne (l : List (String × Val)) (k key : String) (v : Val)
    (hne : key ≠ k) : lookupField (setField l k v) key = lookupField l key := by
  induction l with
  | nil =>
    simp only [setField, lookupField]
    rw [if_neg (fun h => hne h.symm)]
  | cons p rest ih =>
    obtain ⟨k', v'⟩ := p
    simp only [setField]
    by_cases hk : k' = k
    · rw [if_pos hk]
      simp only [lookupField]
      rw [if_neg (fun h => hne h.symm), if_neg (by rw [hk]; exact fun h => hne h.symm)]
    · rw [if_neg hk]
      simp only [lookupField]
      by_cases h2 : k' = key
      · rw [if_pos h2, if_pos h2]
      · rw [if_neg h2, if_neg h2]
        exact ih

theorem hasField_setField_self (l : List (String × Val)) (k : String) (v : Val) :
    hasField (setField l k v) k = true := by
  rw [hasField_eq_isSome, lookupField_setField_self]
  rfl

theorem hasField_setField_ne (l : List (String × Val)) (k key : String) (v : Val)
    (hne : key ≠ k) : hasField (setField l k v) key = hasField l key := by
  rw [hasField_eq_isSome, hasField_eq_isSome, lookupField_setField_ne l k key v hne]

theorem definitionMapGet_isSome_iff (defs : List ComputeDefinition) (key : String) :
    (definitionMapGet defs key).isSome = true ↔ key ∈ defs.map (fun d => d.key) := by
  induction defs with
  | nil => simp [definitionMapGet]
  | cons d rest ih =>
    simp only [definitionMapGet, List.map_cons, List.mem_cons]
    cases hr : definitionMapGet rest key with
    | some r =>
      rw [hr] at ih
      exact iff_of_true rfl (Or.inr (ih.mp rfl))
    | none =>
      rw [hr] at ih
      have ihn : ¬ key ∈ rest.map (fun d => d.key) := fun hm => by cases ih.mpr hm
      by_cases hd : d.key = key
      · rw [if_pos hd]
        exact iff_of_true rfl (Or.inl hd.symm)
      · rw [if_neg hd]
        simp only [Option.isSome_none, Bool.false_eq_true, false_iff]
        rintro (h | h)
        · exact hd h.symm
        · exact ihn h

theorem definitionMapGet_mem (defs : List ComputeDefinition) (d : ComputeDefinition)
    (hd : d ∈ defs) : (definitionMapGet defs d.key).isSome = true :=
  (definitionMapGet_isSome_iff defs d.key).mpr (List.mem_map.mpr ⟨d, hd, rfl⟩)

theorem FrameOk_refl (defs : List ComputeDefinition) (st : CState) : FrameOk defs st st :=
  ⟨rfl, fun _ _ hw => hw, fun _ hk => Or.inl hk, fun _ _ hf => hf⟩

theorem FrameOk_trans (defs : List ComputeDefinition) (st st1 st2 : CState)
    (h1 : FrameOk defs st st1) (h2 : FrameOk defs st1 st2) : FrameOk defs st st2 := by
  obtain ⟨a1, b1, c1, d1⟩ := h1
  obtain ⟨a2, b2, c2, d2⟩ := h2
  refine ⟨a2.trans a1, fun key w hw => b2 key w (b1 key w hw), fun key hk => ?_, ?_⟩
  · rcases c2 key hk with h | h
    · exact c1 key h
    · exact Or.inr h
  · intro key hv hf
    exact d2 key (a1 ▸ hv) (d1 key hv hf)

theorem hasField_of_lookup_isSome (l : List (String × Val)) (k : String)
    (h : (lookupField l k).isSome = true) : hasField l k = true := by
  rw [hasField_eq_isSome]
  exact h

theorem FrameOk_hasField (defs : List ComputeDefinition) (st st' : CState)
    (h : FrameOk defs st st') (key : String) (hk : hasField st.computedValues key = true) :
    hasField st'.computedValues key = true := by
  rw [hasField_eq_isSome] at hk
  cases hl : lookupField st.computedValues key with
  | none => rw [hl] at hk; cases hk
  | some w =>
    rw [hasField_eq_isSome, h.2.1 key w hl]
    rfl

theorem frame_pack (f : Nat) :
    (∀ defs ctx k st v st', resolveComputed defs ctx f k st = .ok (v, st') →
      FrameOk defs st st' ∧ ((definitionMapGet defs k).isSome = true →
        hasField st'.computedValues k = true)) ∧
    (∀ defs ctx e st v st', evalCompute defs ctx f e st = .ok (v, st') →
      FrameOk defs st st') ∧
    (∀ defs ctx args st vs st', evalComputeArgs defs ctx f args st = .ok (vs, st') →
      FrameOk defs st st') := by
  induction f with
  | zero =>
    refine ⟨?_, ?_, ?_⟩ <;> intro defs ctx x st v st' h <;> cases h
  | succ fl ih =>
    obtain ⟨ihr, ihe, iha⟩ := ih
    refine ⟨?_, ?_, ?_⟩
    · intro defs ctx k st v st' h
      simp only [resolveComputed] at h
      split at h
      · rename_i hmem
        simp only [Except.ok.injEq, Prod.mk.injEq] at h
        obtain ⟨hv, hst⟩ := h
        subst hst
        exact ⟨FrameOk_refl defs st, fun _ => hmem⟩
      · rename_i hmem
        split at h
        · rename_i hdm
          simp only [Except.ok.injEq, Prod.mk.injEq] at h
          obtain ⟨hv, hst⟩ := h
          subst hst
          refine ⟨FrameOk_refl defs st, fun hs => ?_⟩
          rw [hdm] at hs
          cases hs
        · rename_i d hdm
          split at h
          · cases h
          · rename_i hvis
            split at h
            · cases h
            · rename_i w st1 he
              simp only [Except.ok.injEq, Prod.mk.injEq] at h
              obtain ⟨hv, hst⟩ := h
              have hfr := ihe defs ctx d.definition ⟨st.computedValues, k :: st.visiting⟩
                w st1 he
              obtain ⟨hA, hB, hC, hD⟩ := hfr
              have hmem' : hasField st.computedValues k = false := Bool.eq_false_iff.mpr hmem
              have hk1 : hasField st1.computedValues k = false :=
                hD k (List.mem_cons_self k st.visiting) hmem'
              have hst' : st' = ⟨setField st1.computedValues k w, st1.visiting.erase k⟩ :=
                hst.symm
              subst hst'
              refine ⟨⟨?_, ?_, ?_, ?_⟩, fun _ => hasField_setField_self _ _ _⟩
              · show (st1.visiting).erase k = st.visiting
                rw [hA, List.erase_cons_head]
              · intro key w' hw
                have hkne : key ≠ k := by
                  intro hkk
                  rw [hkk, hasField_false_lookup _ _ hmem'] at hw
                  cases hw
                show lookupField (setField st1.computedValues k w) key = some w'
                rw [lookupField_setField_ne _ _ _ _ hkne]
                exact hB key w' hw
              · intro key hk
                by_cases hkk : key = k
                · rw [hkk, hdm]
                  exact Or.inr rfl
                · rw [show hasField (setField st1.computedValues k w) key =
                      hasField st1.computedValues key from
                      hasField_setField_ne _ _ _ _ hkk] at hk
                  exact hC key hk
              · intro key hkv hkf
                have hkne : key ≠ k := fun hkk => hvis (hkk ▸ hkv)
                show hasField (setField st1.computedValues k w) key = false
                rw [hasField_setField_ne _ _ _ _ hkne]
                exact hD key (List.mem_cons_of_mem k hkv) hkf
    · intro defs ctx e st v st' h
      cases e with
      | lit w =>
        simp only [evalCompute, Except.ok.injEq, Prod.mk.injEq] at h
        obtain ⟨hv, hst⟩ := h
        subst hst
        exact FrameOk_refl defs st
      | value w =>
        simp only [evalCompute, Except.ok.injEq, Prod.mk.injEq] at h
        obtain ⟨hv, hst⟩ := h
        subst hst
        exact FrameOk_refl defs st
      | var s =>
        simp only [evalCompute] at h
        split at h
        · exact (ihr defs ctx (jsDrop s 9) st v st' h).1
        · simp only [Except.ok.injEq, Prod.mk.injEq] at h
          obtain ⟨hv, hst⟩ := h
          subst hst
          exact FrameOk_refl defs st
      | func fn args =>
        simp only [evalCompute] at h
        split at h
        · cases h
        · rename_i argVals st1 ha
          have hfr := iha defs ctx args st argVals st1 ha
          cases fn <;>
            (simp only [Except.ok.injEq, Prod.mk.injEq] at h
             exact h.2 ▸ hfr)
      | op o args =>
        simp only [evalCompute] at h
        split at h
        · cases h
        · rename_i argVals st1 ha
          simp only [Except.ok.injEq, Prod.mk.injEq] at h
          exact h.2 ▸ iha defs ctx args st argVals st1 ha
    · intro defs ctx args st vs st' h
      cases args with
      | nil =>
        simp only [evalComputeArgs, Except.ok.injEq, Prod.mk.injEq] at h
        obtain ⟨hv, hst⟩ := h
        subst hst
        exact FrameOk_refl defs st
      | cons a rest =>
        simp only [evalComputeArgs] at h
        split at h
        · cases h
        · rename_i w st1 he
          split at h
          · cases h
          · rename_i ws st2 hr
            simp only [Except.ok.injEq, Prod.mk.injEq] at h
            exact h.2 ▸ FrameOk_trans defs st st1 st2 (ihe defs ctx a st w st1 he)
              (iha defs ctx rest st1 ws st2 hr)

theorem computeLoop_frame (defs : List ComputeDefinition) (ctx : EvaluationContext) (f : Nat)
    (pending : List ComputeDefinition) (st st' : CState)
    (h : computeLoop defs ctx f pending st = .ok st') :
    FrameOk defs st st' ∧
      ∀ d ∈ pending, (definitionMapGet defs d.key).isSome = true →
        hasField st'.computedValues d.key = true := by
  induction pending generalizing st with
  | nil =>
    simp only [computeLoop, Except.ok.injEq] at h
    subst h
    exact ⟨FrameOk_refl defs st, fun d hd => absurd hd (List.not_mem_nil d)⟩
  | cons d rest ih =>
    simp only [computeLoop] at h
    split at h
    · cases h
    · rename_i w st1 hr
      have hfr := ((frame_pack f).1 defs ctx d.key st w st1 hr)
      have hrest := ih st1 h
      refine ⟨FrameOk_trans defs st st1 st' hfr.1 hrest.1, fun d' hd' hs => ?_⟩
      rcases List.mem_cons.mp hd' with hde | hdm
      · subst hde
        exact FrameOk_hasField defs st1 st' hrest.1 d'.key (hfr.2 hs)
      · exact hrest.2 d' hdm hs

theorem SupOf_preserve (base : List (String × Val)) (defs : List ComputeDefinition)
    (st st' : CState) (hf : FrameOk defs st st') (hs : SupOf base st) : SupOf base st' :=
  fun key hk => FrameOk_hasField defs st st' hf key (hs key hk)

theorem sim_pack (base : List (String × Val)) (defs defs' : List ComputeDefinition)
    (hag : DefsAgree defs defs' base) (f : Nat) :
    (∀ ctx k st, SupOf base st →
      resolveComputed defs ctx f k st = resolveComputed defs' ctx f k st) ∧
    (∀ ctx e st, SupOf base st →
      evalCompute defs ctx f e st = evalCompute defs' ctx f e st) ∧
    (∀ ctx args st, SupOf base st →
      evalComputeArgs defs ctx f args st = evalComputeArgs defs' ctx f args st) := by
  induction f with
  | zero =>
    refine ⟨?_, ?_, ?_⟩ <;> intro ctx x st hsup <;> rfl
  | succ fl ih =>
    obtain ⟨ihr, ihe, iha⟩ := ih
    refine ⟨?_, ?_, ?_⟩
    · intro ctx k st hsup
      simp only [resolveComputed]
      by_cases hmem : hasField st.computedValues k = true
      · rw [if_pos hmem, if_pos hmem]
      · rw [if_neg hmem, if_neg hmem]
        have hbase : hasField base k = false := by
          cases hb : hasField base k
          · rfl
          · exact absurd (hsup k hb) hmem
        have hkeys := hag.1 k
        have hbody := hag.2 k hbase
        cases hd : definitionMapGet defs k with
        | none =>
          cases hd' : definitionMapGet defs' k with
          | none => rfl
          | some d' =>
            rw [hd, hd'] at hkeys
            cases hkeys
        | some d =>
          cases hd' : definitionMapGet defs' k with
          | none =>
            rw [hd, hd'] at hkeys
            cases hkeys
          | some d' =>
            rw [hd, hd'] at hbody
            have hdef : d.definition = d'.definition := Option.some.inj hbody
            have hev : evalCompute defs ctx fl d.definition
                  ⟨st.computedValues, k :: st.visiting⟩ =
                evalCompute defs' ctx fl d'.definition
                  ⟨st.computedValues, k :: st.visiting⟩ := by
              rw [hdef]
              exact ihe ctx d'.definition ⟨st.computedValues, k :: st.visiting⟩
                (fun key hk => hsup key hk)
            exact congrArg (fun r : Except ComputeErr (Val × CState) =>
              if k ∈ st.visiting then
                (Except.error (ComputeErr.cycle k) : Except ComputeErr (Val × CState))
              else match r with
                | Except.error e => Except.error e
                | Except.ok (value, st1) =>
                  Except.ok (value,
                    CState.mk (setField st1.computedValues k value) (st1.visiting.erase k))) hev
    · intro ctx e st hsup
      cases e with
      | lit w => rfl
      | value w => rfl
      | var s =>
        simp only [evalCompute]
        split
        · exact ihr ctx (jsDrop s 9) st hsup
        · rfl
      | func fn args =>
        simp only [evalCompute]
        rw [show evalComputeArgs defs ctx fl args st = evalComputeArgs defs' ctx fl args st from
          iha ctx args st hsup]
      | op o args =>
        simp only [evalCompute]
        rw [show evalComputeArgs defs ctx fl args st = evalComputeArgs defs' ctx fl args st from
          iha ctx args st hsup]
    · intro ctx args st hsup
      cases args with
      | nil => rfl
      | cons a rest =>
        simp only [evalComputeArgs]
        rw [show evalCompute defs ctx fl a st = evalCompute defs' ctx fl a st from
          ihe ctx a st hsup]
        cases he : evalCompute defs' ctx fl a st with
        | error e' => rfl
        | ok p =>
          obtain ⟨w, st1⟩ := p
          have hsup1 : SupOf base st1 := by
            have hfr := (frame_pack fl).2.1 defs' ctx a st w st1 he
            intro key hk
            exact FrameOk_hasField defs' st st1 hfr key (hsup key hk)
          exact congrArg (fun r => match r with
            | Except.error e => Except.error e
            | Except.ok (vs, st2) => Except.ok (w :: vs, st2)) (iha ctx rest st1 hsup1)

theorem computeLoop_sim (base : List (String × Val)) (defs defs' : List ComputeDefinition)
    (hag : DefsAgree defs defs' base) (ctx : EvaluationContext) (f : Nat)
    (pending pending' : List ComputeDefinition)
    (hkeys : pending.map (fun d => d.key) = pending'.map (fun d => d.key))
    (st : CState) (hsup : SupOf base st) :
    computeLoop defs ctx f pending st = computeLoop defs' ctx f pending' st := by
  induction pending generalizing pending' st with
  | nil =>
    cases pending' with
    | nil => rfl
    | cons d' rest' => simp at hkeys
  | cons d rest ih =>
    cases pending' with
    | nil => simp at hkeys
    | cons d' rest' =>
      simp only [List.map_cons, List.cons.injEq] at hkeys
      obtain ⟨hk, hrest⟩ := hkeys
      simp only [computeLoop]
      have hres : resolveComputed defs ctx f d.key st =
          resolveComputed defs' ctx f d'.key st := by
        rw [hk]
        exact (sim_pack base defs defs' hag f).1 ctx d'.key st hsup
      rw [hres]
      cases hr : resolveComputed defs' ctx f d'.key st with
      | error e => rfl
      | ok p =>
        obtain ⟨w, st1⟩ := p
        have hsup1 : SupOf base st1 :=
          SupOf_preserve base defs' st st1
            ((frame_pack f).1 defs' ctx d'.key st w st1 hr).1 hsup
        exact ih rest' hrest st1 hsup1

/-- C10: on success `computeDefinitions` preserves every pre-existing
entry of `context.computed` with its value, memoises every definition
key, adds no key without a stored definition, and at every common fuel
the run is unchanged when the body of a definition whose key
pre-exists in `context.computed` is replaced — that expression is
never evaluated (the embedding threads state explicitly, so the input
context itself is never mutated). -/
theorem computeDefinitions_frame (defs : List ComputeDefinition) (ctx : EvaluationContext)
    (cv : List (String × Val)) (h : computeDefinitions defs ctx = .ok cv) :
    (∀ k w, lookupField ctx.computed k = some w → lookupField cv k = some w)
  ∧ (∀ d ∈ defs, hasField cv d.key = true)
  ∧ (∀ k, hasField cv k = true →
      hasField ctx.computed k = true ∨ (definitionMapGet defs k).isSome = true)
  ∧ (∀ (defs' : List ComputeDefinition) (fuel : Nat),
      defs.map (fun d => d.key) = defs'.map (fun d => d.key) →
      (∀ key, hasField ctx.computed key = false →
        (definitionMapGet defs key).map (fun d => d.definition) =
          (definitionMapGet defs' key).map (fun d => d.definition)) →
      computeLoop defs ctx fuel defs ⟨ctx.computed, []⟩ =
        computeLoop defs' ctx fuel defs' ⟨ctx.computed, []⟩) := by
  cases hl : computeLoop defs ctx (computeFuel defs) defs ⟨ctx.computed, []⟩ with
  | error e =>
    rw [computeDefinitions, hl] at h
    cases h
  | ok st =>
    rw [computeDefinitions, hl] at h
    have hcv : cv = st.computedValues := (Except.ok.inj h).symm
    subst hcv
    have hfr := computeLoop_frame defs ctx (computeFuel defs) defs ⟨ctx.computed, []⟩ st hl
    refine ⟨fun k w hw => hfr.1.2.1 k w hw,
      fun d hd => hfr.2 d hd (definitionMapGet_mem defs d hd),
      fun k hk => hfr.1.2.2.1 k hk,
      fun defs' fuel hkeys hbody => ?_⟩
    have hag1 : ∀ key, (definitionMapGet defs key).isSome = (definitionMapGet defs' key).isSome := by
      intro key
      have h1 := definitionMapGet_isSome_iff defs key
      have h2 := definitionMapGet_isSome_iff defs' key
      rw [hkeys] at h1
      cases hb : (definitionMapGet defs key).isSome with
      | true =>
        rw [(h2.mpr (h1.mp hb))]
      | false =>
        cases hb' : (definitionMapGet defs' key).isSome with
        | true =>
          rw [h1.mpr (h2.mp hb')] at hb
          cases hb
        | false => rfl
    exact computeLoop_sim ctx.computed defs defs' ⟨hag1, hbody⟩ ctx fuel defs defs'
      hkeys ⟨ctx.computed, []⟩ (fun key hk => hk)

theorem computeDefinitions_frame_witness :
    (∀ k w, lookupField c10Ctx.computed k = some w → lookupField c10Cv k = some w)
  ∧ (∀ d ∈ c10Defs, hasField c10Cv d.key = true)
  ∧ (∀ k, hasField c10Cv k = true →
      hasField c10Ctx.computed k = true ∨ (definitionMapGet c10Defs k).isSome = true)
  ∧ (∀ (defs' : List ComputeDefinition) (fuel : Nat),
      c10Defs.map (fun d => d.key) = defs'.map (fun d => d.key) →
      (∀ key, hasField c10Ctx.computed key = false →
        (definitionMapGet c10Defs key).map (fun d => d.definition) =
          (definitionMapGet defs' key).map (fun d => d.definition)) →
      computeLoop c10Defs c10Ctx fuel c10Defs ⟨c10Ctx.computed, []⟩ =
        computeLoop defs' c10Ctx fuel defs' ⟨c10Ctx.computed, []⟩) :=
  computeDefinitions_frame c10Defs c10Ctx c10Cv rfl

theorem splitChar_no_sep (sep : Char) (cs : List Char) (h : ∀ c ∈ cs, c ≠ sep) :
    splitChar sep cs = [cs] := by
  induction cs with
  | nil => rfl
  | cons c rest ih =>
    have hc : c ≠ sep := h c (List.mem_cons_self c rest)
    have hrest : ∀ c' ∈ rest, c' ≠ sep := fun c' hc' => h c' (List.mem_cons_of_mem c hc')
    simp only [splitChar, if_neg hc, ih hrest]

theorem splitChar_append_sep (sep : Char) (pre rest : List Char)
    (hpre : ∀ c ∈ pre, c ≠ sep) (hrest : ∀ c ∈ rest, c ≠ sep) :
    splitChar sep (pre ++ sep :: rest) = [pre, rest] := by
  induction pre with
  | nil =>
    simp only [List.nil_append, splitChar, if_pos rfl, splitChar_no_sep sep rest hrest]
    simp
  | cons c pre' ih =>
    have hc : c ≠ sep := hpre c (List.mem_cons_self c pre')
    have hpre' : ∀ c' ∈ pre', c' ≠ sep := fun c' hc' => hpre c' (List.mem_cons_of_mem c hc')
    simp only [List.cons_append, splitChar, if_neg hc]
    rw [show splitChar sep (pre'.append (sep :: rest)) = [pre', rest] from ih hpre']

theorem jsSplit_computed (k : String) (hk : ∀ c ∈ k.data, c ≠ '.') :
    jsSplit ("computed." ++ k) '.' = ["computed", k] := by
  have hdata : ("computed." ++ k).data =
      ['c', 'o', 'm', 'p', 'u', 't', 'e', 'd'] ++ '.' :: k.data := by
    rw [String.data_append]
    rfl
  rw [jsSplit, hdata, splitChar_append_sep '.' _ _ (by decide) hk]
  rfl

theorem resolveVariable_computed_absent (k : String) (a cv m : List (String × Val))
    (hk : ∀ c ∈ k.data, c ≠ '.') (hmem : hasField cv k = false) :
    resolveVariable ("computed." ++ k) ⟨a, cv, m⟩ = .vUndef := by
  rw [resolveVariable, jsSplit_computed k hk]
  simp only [List.isEmpty_cons, if_neg (by decide : ¬("computed" : String) = "answers"),
    if_pos rfl, Bool.false_eq_true, if_false]
  show pathStep (.vObj cv) k = .vUndef
  rw [pathStep, hasField_false_lookup cv k hmem]

theorem charsStartWith_append (p rest : List Char) : charsStartWith (p ++ rest) p = true := by
  induction p with
  | nil => cases rest <;> rfl
  | cons c cs ih => simp [charsStartWith, ih]

theorem jsStartsWith_computed (k : String) :
    jsStartsWith ("computed." ++ k) "computed." = true := by
  rw [jsStartsWith, String.data_append]
  exact charsStartWith_append _ _

theorem jsDrop_computed (k : String) : jsDrop ("computed." ++ k) 9 = k := by
  rw [jsDrop, String.data_append]
  rw [show (9 : Nat) = ("computed.".data).length from rfl, List.drop_left]

theorem cycle_pack (defs : List ComputeDefinition) (ctx : EvaluationContext) (ks : List String)
    (hks : ∀ k ∈ ks, (∀ c ∈ k.data, c ≠ '.') ∧
      ∃ d, definitionMapGet defs k = some d ∧
        ∃ k', k' ∈ ks ∧ containsVar d.definition ("computed." ++ k') = true)
    (f : Nat) :
    (∀ k st, k ∈ ks → (∀ u ∈ ks, hasField st.computedValues u = false) →
      ∀ v st', resolveComputed defs ctx f k st ≠ .ok (v, st')) ∧
    (∀ e st, (∃ k' ∈ ks, containsVar e ("computed." ++ k') = true) →
      (∀ u ∈ ks, hasField st.computedValues u = false) →
      ∀ v st', evalCompute defs ctx f e st ≠ .ok (v, st')) ∧
    (∀ args st, (∃ k' ∈ ks, containsVarList args ("computed." ++ k') = true) →
      (∀ u ∈ ks, hasField st.computedValues u = false) →
      ∀ vs st', evalComputeArgs defs ctx f args st ≠ .ok (vs, st')) ∧
    (∀ k st v st', resolveComputed defs ctx f k st = .ok (v, st') →
      (∀ u ∈ ks, hasField st.computedValues u = false) →
      ∀ u ∈ ks, hasField st'.computedValues u = false) ∧
    (∀ e st v st', evalCompute defs ctx f e st = .ok (v, st') →
      (∀ u ∈ ks, hasField st.computedValues u = false) →
      ∀ u ∈ ks, hasField st'.computedValues u = false) ∧
    (∀ args st vs st', evalComputeArgs defs ctx f args st = .ok (vs, st') →
      (∀ u ∈ ks, hasField st.computedValues u = false) →
      ∀ u ∈ ks, hasField st'.computedValues u = false) := by
  induction f with
  | zero =>
    refine ⟨?_, ?_, ?_, ?_, ?_, ?_⟩
    · intro k st _ _ v st' h
      cases h
    · intro e st _ _ v st' h
      cases h
    · intro args st _ _ vs st' h
      cases h
    · intro k st v st' h
      cases h
    · intro e st v st' h
      cases h
    · intro args st vs st' h
      cases h
  | succ fl ih =>
    obtain ⟨ihP1, ihP2, ihP3, ihQ1, ihQ2, ihQ3⟩ := ih
    have hP1 : ∀ k st, k ∈ ks → (∀ u ∈ ks, hasField st.computedValues u = false) →
        ∀ v st', resolveComputed defs ctx (fl + 1) k st ≠ .ok (v, st') := by
      intro k st hk hunmem v st' h
      simp only [resolveComputed] at h
      split at h
      · rename_i hmem
        rw [hunmem k hk] at hmem
        cases hmem
      · rename_i hmem
        split at h
        · rename_i hdm
          obtain ⟨d0, hd0, hrest⟩ := (hks k hk).2
          rw [hdm] at hd0
          cases hd0
        · rename_i d hdm
          split at h
          · cases h
          · rename_i hvis
            split at h
            · cases h
            · rename_i w st1 he
              obtain ⟨hdot, d0, hd0, k', hk', hcv⟩ := hks k hk
              rw [hdm] at hd0
              have hdd : d = d0 := Option.some.inj hd0
              rw [← hdd] at hcv
              exact ihP2 d.definition ⟨st.computedValues, k :: st.visiting⟩
                ⟨k', hk', hcv⟩ hunmem w st1 he
    have hP2 : ∀ e st, (∃ k' ∈ ks, containsVar e ("computed." ++ k') = true) →
        (∀ u ∈ ks, hasField st.computedValues u = false) →
        ∀ v st', evalCompute defs ctx (fl + 1) e st ≠ .ok (v, st') := by
      intro e st hex hunmem v st' h
      obtain ⟨k', hk', hcv⟩ := hex
      cases e with
      | lit w => cases hcv
      | value w => cases hcv
      | var s =>
        have hs : s = "computed." ++ k' := eq_of_beq hcv
        subst hs
        simp only [evalCompute] at h
        rw [if_pos (by
          rw [jsStartsWith_computed k',
            resolveVariable_computed_absent k' ctx.answers st.computedValues ctx.metadata
              (hks k' hk').1 (hunmem k' hk')]
          rfl)] at h
        rw [jsDrop_computed k'] at h
        exact ihP1 k' st hk' hunmem v st' h
      | func fn args =>
        simp only [evalCompute] at h
        split at h
        · cases h
        · rename_i argVals st1 ha
          exact ihP3 args st ⟨k', hk', hcv⟩ hunmem argVals st1 ha
      | op o args =>
        simp only [evalCompute] at h
        split at h
        · cases h
        · rename_i argVals st1 ha
          exact ihP3 args st ⟨k', hk', hcv⟩ hunmem argVals st1 ha
    have hQ1 : ∀ k st v st', resolveComputed defs ctx (fl + 1) k st = .ok (v, st') →
        (∀ u ∈ ks, hasField st.computedValues u = false) →
        ∀ u ∈ ks, hasField st'.computedValues u = false := by
      intro k st v st' h hunmem u hu
      simp only [resolveComputed] at h
      split at h
      · simp only [Except.ok.injEq, Prod.mk.injEq] at h
        exact h.2 ▸ hunmem u hu
      · rename_i hmem
        split at h
        · simp only [Except.ok.injEq, Prod.mk.injEq] at h
          exact h.2 ▸ hunmem u hu
        · rename_i d hdm
          split at h
          · cases h
          · rename_i hvis
            split at h
            · cases h
            · rename_i w st1 he
              have hkne : u ≠ k := by
                intro hku
                subst hku
                obtain ⟨hdot, d0, hd0, k', hk', hcv⟩ := hks u hu
                rw [hdm] at hd0
                have hdd : d = d0 := Option.some.inj hd0
                rw [← hdd] at hcv
                exact ihP2 d.definition ⟨st.computedValues, u :: st.visiting⟩
                  ⟨k', hk', hcv⟩ hunmem w st1 he
              have hst1 : hasField st1.computedValues u = false :=
                ihQ2 d.definition ⟨st.computedValues, k :: st.visiting⟩ w st1 he hunmem u hu
              simp only [Except.ok.injEq, Prod.mk.injEq] at h
              rw [← h.2]
              show hasField (setField st1.computedValues k w) u = false
              rw [hasField_setField_ne _ _ _ _ hkne]
              exact hst1
    have hQ2 : ∀ e st v st', evalCompute defs ctx (fl + 1) e st = .ok (v, st') →
        (∀ u ∈ ks, hasField st.computedValues u = false) →
        ∀ u ∈ ks, hasField st'.computedValues u = false := by
      intro e st v st' h hunmem u hu
      cases e with
      | lit w =>
        simp only [evalCompute, Except.ok.injEq, Prod.mk.injEq] at h
        exact h.2 ▸ hunmem u hu
      | value w =>
        simp only [evalCompute, Except.ok.injEq, Prod.mk.injEq] at h
        exact h.2 ▸ hunmem u hu
      | var s =>
        simp only [evalCompute] at h
        split at h
        · exact ihQ1 (jsDrop s 9) st v st' h hunmem u hu
        · simp only [Except.ok.injEq, Prod.mk.injEq] at h
          exact h.2 ▸ hunmem u hu
      | func fn args =>
        simp only [evalCompute] at h
        split at h
        · cases h
        · rename_i argVals st1 ha
          have h1 := ihQ3 args st argVals st1 ha hunmem u hu
          cases fn <;>
            (simp only [Except.ok.injEq, Prod.mk.injEq] at h
             exact h.2 ▸ h1)
      | op o args =>
        simp only [evalCompute] at h
        split at h
        · cases h
        · rename_i argVals st1 ha
          simp only [Except.ok.injEq, Prod.mk.injEq] at h
          exact h.2 ▸ ihQ3 args st argVals st1 ha hunmem u hu
    have hP3 : ∀ args st, (∃ k' ∈ ks, containsVarList args ("computed." ++ k') = true) →
        (∀ u ∈ ks, hasField st.computedValues u = false) →
        ∀ vs st', evalComputeArgs defs ctx (fl + 1) args st ≠ .ok (vs, st') := by
      intro args st hex hunmem vs st' h
      obtain ⟨k', hk', hcv⟩ := hex
      cases args with
      | nil => cases hcv
      | cons a rest =>
        simp only [evalComputeArgs] at h
        split at h
        · cases h
        · rename_i w st1 he
          split at h
          · cases h
          · rename_i ws st2 hr
            rcases Bool.or_eq_true _ _ |>.mp hcv with hca | hcr
            · exact ihP2 a st ⟨k', hk', hca⟩ hunmem w st1 he
            · have hunmem1 := ihQ2 a st w st1 he hunmem
              exact ihP3 rest st1 ⟨k', hk', hcr⟩ hunmem1 ws st2 hr
    have hQ3 : ∀ args st vs st', evalComputeArgs defs ctx (fl + 1) args st = .ok (vs, st') →
        (∀ u ∈ ks, hasField st.computedValues u = false) →
        ∀ u ∈ ks, hasField st'.computedValues u = false := by
      intro args st vs st' h hunmem u hu
      cases args with
      | nil =>
        simp only [evalComputeArgs, Except.ok.injEq, Prod.mk.injEq] at h
        exact h.2 ▸ hunmem u hu
      | cons a rest =>
        simp only [evalComputeArgs] at h
        split at h
        · cases h
        · rename_i w st1 he
          split at h
          · cases h
          · rename_i ws st2 hr
            simp only [Except.ok.injEq, Prod.mk.injEq] at h
            have h1 := ihQ2 a st w st1 he hunmem
            exact h.2 ▸ ihQ3 rest st1 ws st2 hr h1 u hu
    exact ⟨hP1, hP2, hP3, hQ1, hQ2, hQ3⟩

theorem definitionMapGet_spec (defs : List ComputeDefinition) (k : String)
    (d : ComputeDefinition) (h : definitionMapGet defs k = some d) :
    d ∈ defs ∧ d.key = k := by
  induction defs with
  | nil => cases h
  | cons d0 rest ih =>
    simp only [definitionMapGet] at h
    split at h
    · rename_i r hr
      have hd : r = d := Option.some.inj h
      subst hd
      exact ⟨List.mem_cons_of_mem d0 (ih hr).1, (ih hr).2⟩
    · split at h
      · rename_i hk
        have hd : d0 = d := Option.some.inj h
        subst hd
        exact ⟨List.mem_cons_self d0 rest, hk⟩
      · cases h

theorem computeLoop_cycle (defs : List ComputeDefinition) (ctx : EvaluationContext)
    (ks : List String)
    (hks : ∀ k ∈ ks, (∀ c ∈ k.data, c ≠ '.') ∧
      ∃ d, definitionMapGet defs k = some d ∧
        ∃ k', k' ∈ ks ∧ containsVar d.definition ("computed." ++ k') = true)
    (f : Nat) (pending : List ComputeDefinition) (st : CState)
    (hunmem : ∀ u ∈ ks, hasField st.computedValues u = false)
    (hpend : ∃ d ∈ pending, d.key ∈ ks) :
    ∀ st', computeLoop defs ctx f pending st ≠ .ok st' := by
  induction pending generalizing st with
  | nil =>
    obtain ⟨d, hd, _⟩ := hpend
    exact absurd hd (List.not_mem_nil d)
  | cons d rest ih =>
    intro st' h
    simp only [computeLoop] at h
    split at h
    · cases h
    · rename_i w st1 hr
      by_cases hdk : d.key ∈ ks
      · exact (cycle_pack defs ctx ks hks f).1 d.key st hdk hunmem w st1 hr
      · have hunmem1 : ∀ u ∈ ks, hasField st1.computedValues u = false :=
          (cycle_pack defs ctx ks hks f).2.2.2.1 d.key st w st1 hr hunmem
        have hpend1 : ∃ d' ∈ rest, d'.key ∈ ks := by
          obtain ⟨d', hd', hk'⟩ := hpend
          rcases List.mem_cons.mp hd' with hde | hdm
          · exact absurd (hde ▸ hk') hdk
          · exact ⟨d', hdm, hk'⟩
        exact ih st1 hunmem1 hpend1 st' h

theorem prov_pack (defs : List ComputeDefinition) (ctx : EvaluationContext) (f : Nat) :
    (∀ k st e, resolveComputed defs ctx f k st = .error (.cycle e) →
      (definitionMapGet defs e).isSome = true) ∧
    (∀ ex st e, evalCompute defs ctx f ex st = .error (.cycle e) →
      (definitionMapGet defs e).isSome = true) ∧
    (∀ args st e, evalComputeArgs defs ctx f args st = .error (.cycle e) →
      (definitionMapGet defs e).isSome = true) := by
  induction f with
  | zero =>
    refine ⟨?_, ?_, ?_⟩
    · intro k st e h
      cases h
    · intro ex st e h
      cases h
    · intro args st e h
      cases h
  | succ fl ih =>
    obtain ⟨ihr, ihe, iha⟩ := ih
    refine ⟨?_, ?_, ?_⟩
    · intro k st e h
      simp only [resolveComputed] at h
      split at h
      · cases h
      · split at h
        · cases h
        · rename_i d hdm
          split at h
          · rename_i hvis
            simp only [Except.error.injEq, ComputeErr.cycle.injEq] at h
            rw [← h, hdm]
            rfl
          · split at h
            · rename_i e1 he1
              simp only [Except.error.injEq] at h
              rw [h] at he1
              exact ihe d.definition ⟨st.computedValues, k :: st.visiting⟩ e he1
            · cases h
    · intro ex st e h
      cases ex with
      | lit w => cases h
      | value w => cases h
      | var s =>
        simp only [evalCompute] at h
        split at h
        · exact ihr (jsDrop s 9) st e h
        · cases h
      | func fn args =>
        simp only [evalCompute] at h
        split at h
        · rename_i e1 he1
          simp only [Except.error.injEq] at h
          rw [h] at he1
          exact iha args st e he1
        · cases fn <;> cases h
      | op o args =>
        simp only [evalCompute] at h
        split at h
        · rename_i e1 he1
          simp only [Except.error.injEq] at h
          rw [h] at he1
          exact iha args st e he1
        · cases h
    · intro args st e h
      cases args with
      | nil => cases h
      | cons a rest =>
        simp only [evalComputeArgs] at h
        split at h
        · rename_i e1 he1
          simp only [Except.error.injEq] at h
          rw [h] at he1
          exact ihe a st e he1
        · rename_i w st1 he1
          split at h
          · rename_i e2 he2
            simp only [Except.error.injEq] at h
            rw [h] at he2
            exact iha rest st1 e he2
          · cases h

theorem computeLoop_prov (defs : List ComputeDefinition) (ctx : EvaluationContext) (f : Nat)
    (pending : List ComputeDefinition) (st : CState) (e : String)
    (h : computeLoop defs ctx f pending st = .error (.cycle e)) :
    (definitionMapGet defs e).isSome = true := by
  induction pending generalizing st with
  | nil => cases h
  | cons d rest ih =>
    simp only [computeLoop] at h
    split at h
    · rename_i e1 he1
      simp only [Except.error.injEq] at h
      rw [h] at he1
      exact (prov_pack defs ctx f).1 d.key st e he1
    · rename_i w st1 hr
      exact ih st1 h

theorem remainingCost_cons (d0 : ComputeDefinition) (rest : List ComputeDefinition)
    (st : CState) :
    remainingCost (d0 :: rest) st =
      (if d0.key ∈ st.visiting ∨ hasField st.computedValues d0.key = true then 0
       else 2 + exprSize d0.definition) + remainingCost rest st := by
  simp [remainingCost]

theorem exprSize_pos (e : CExpr) : 1 ≤ exprSize e := by
  cases e <;> simp only [exprSize] <;> omega

theorem exprListSize_pos (args : CExprList) : 1 ≤ exprListSize args := by
  cases args <;> simp only [exprListSize] <;> omega

theorem remainingCost_mono (defs : List ComputeDefinition) (st st' : CState)
    (hvis : st'.visiting = st.visiting)
    (hgrow : ∀ key, hasField st.computedValues key = true →
      hasField st'.computedValues key = true) :
    remainingCost defs st' ≤ remainingCost defs st := by
  induction defs with
  | nil => exact le_refl 0
  | cons d rest ih =>
    rw [remainingCost_cons, remainingCost_cons]
    have hterm : (if d.key ∈ st'.visiting ∨ hasField st'.computedValues d.key = true then 0
        else 2 + exprSize d.definition) ≤
        (if d.key ∈ st.visiting ∨ hasField st.computedValues d.key = true then 0
        else 2 + exprSize d.definition) := by
      by_cases hc : d.key ∈ st.visiting ∨ hasField st.computedValues d.key = true
      · rw [if_pos hc, if_pos (by
          rcases hc with h | h
          · exact Or.inl (by rw [hvis]; exact h)
          · exact Or.inr (hgrow _ h))]
      · rw [if_neg hc]
        split
        · exact Nat.zero_le _
        · exact le_refl _
    omega

theorem remainingCost_push (defs : List ComputeDefinition) (cv : List (String × Val))
    (k : String) (vis : List String) :
    remainingCost defs ⟨cv, k :: vis⟩ ≤ remainingCost defs ⟨cv, vis⟩ := by
  induction defs with
  | nil => exact le_refl 0
  | cons d rest ih =>
    rw [remainingCost_cons, remainingCost_cons]
    have hterm : (if d.key ∈ (CState.mk cv (k :: vis)).visiting ∨
        hasField (CState.mk cv (k :: vis)).computedValues d.key = true then 0
        else 2 + exprSize d.definition) ≤
        (if d.key ∈ (CState.mk cv vis).visiting ∨
        hasField (CState.mk cv vis).computedValues d.key = true then 0
        else 2 + exprSize d.definition) := by
      by_cases hc : d.key ∈ vis ∨ hasField cv d.key = true
      · rw [if_pos hc, if_pos (by
          rcases hc with h | h
          · exact Or.inl (List.mem_cons_of_mem k h)
          · exact Or.inr h)]
      · rw [if_neg hc]
        split
        · exact Nat.zero_le _
        · exact le_refl _
    omega

theorem remainingCost_split (defs : List ComputeDefinition) (k : String) (st : CState)
    (d : ComputeDefinition) (hd : definitionMapGet defs k = some d)
    (hvis : k ∉ st.visiting) (hmem : hasField st.computedValues k = false) :
    remainingCost defs ⟨st.computedValues, k :: st.visiting⟩ + 2 + exprSize d.definition ≤
      remainingCost defs st := by
  induction defs with
  | nil => cases hd
  | cons d0 rest ih =>
    simp only [definitionMapGet] at hd
    split at hd
    · rename_i r hr
      have hrd : r = d := Option.some.inj hd
      subst hrd
      have hih := ih hr
      rw [remainingCost_cons, remainingCost_cons]
      have hterm : (if d0.key ∈ (CState.mk st.computedValues (k :: st.visiting)).visiting ∨
          hasField (CState.mk st.computedValues (k :: st.visiting)).computedValues d0.key = true
          then 0 else 2 + exprSize d0.definition) ≤
          (if d0.key ∈ st.visiting ∨ hasField st.computedValues d0.key = true then 0
          else 2 + exprSize d0.definition) := by
        by_cases hc : d0.key ∈ st.visiting ∨ hasField st.computedValues d0.key = true
        · rw [if_pos hc, if_pos (by
            rcases hc with h | h
            · exact Or.inl (List.mem_cons_of_mem k h)
            · exact Or.inr h)]
        · rw [if_neg hc]
          split
          · exact Nat.zero_le _
          · exact le_refl _
      omega
    · split at hd
      · rename_i hr hk0
        have hd0d : d0 = d := Option.some.inj hd
        subst hd0d
        rw [remainingCost_cons, remainingCost_cons]
        rw [if_pos (Or.inl (show d0.key ∈ (CState.mk st.computedValues
          (k :: st.visiting)).visiting by rw [hk0]; exact List.mem_cons_self k st.visiting))]
        rw [if_neg (by
          rw [hk0]
          rintro (h | h)
          · exact hvis h
          · rw [hmem] at h
            cases h)]
        have hpush : remainingCost rest ⟨st.computedValues, k :: st.visiting⟩ ≤
            remainingCost rest st :=
          remainingCost_push rest st.computedValues k st.visiting
        omega
      · cases hd

theorem fuel_pack (defs : List ComputeDefinition) (ctx : EvaluationContext) (f : Nat) :
    (∀ k st, 1 + remainingCost defs st ≤ f →
      resolveComputed defs ctx f k st ≠ .error .fuelExhausted) ∧
    (∀ e st, exprSize e + remainingCost defs st ≤ f →
      evalCompute defs ctx f e st ≠ .error .fuelExhausted) ∧
    (∀ args st, exprListSize args + remainingCost defs st ≤ f →
      evalComputeArgs defs ctx f args st ≠ .error .fuelExhausted) := by
  induction f with
  | zero =>
    refine ⟨?_, ?_, ?_⟩
    · intro k st hb
      omega
    · intro e st hb
      have := exprSize_pos e
      omega
    · intro args st hb
      have := exprListSize_pos args
      omega
  | succ fl ih =>
    obtain ⟨ihr, ihe, iha⟩ := ih
    refine ⟨?_, ?_, ?_⟩
    · intro k st hb h
      simp only [resolveComputed] at h
      split at h
      · cases h
      · rename_i hmem
        split at h
        · cases h
        · rename_i d hdm
          split at h
          · simp only [Except.error.injEq] at h
            cases h
          · rename_i hvis
            split at h
            · rename_i e1 he1
              simp only [Except.error.injEq] at h
              rw [h] at he1
              have hmem' : hasField st.computedValues k = false := Bool.eq_false_iff.mpr hmem
              have hsplit := remainingCost_split defs k st d hdm hvis hmem'
              exact ihe d.definition ⟨st.computedValues, k :: st.visiting⟩ (by omega) he1
            · cases h
    · intro e st hb h
      cases e with
      | lit w =>
        simp only [evalCompute] at h
        cases h
      | value w =>
        simp only [evalCompute] at h
        cases h
      | var s =>
        simp only [evalCompute] at h
        split at h
        · have hb' : 1 + remainingCost defs st ≤ fl := by
            simp only [exprSize] at hb
            omega
          exact ihr (jsDrop s 9) st hb' h
        · cases h
      | func fn args =>
        simp only [evalCompute] at h
        split at h
        · rename_i e1 he1
          simp only [Except.error.injEq] at h
          rw [h] at he1
          have hb' : exprListSize args + remainingCost defs st ≤ fl := by
            simp only [exprSize] at hb
            omega
          exact iha args st hb' he1
        · cases fn <;> cases h
      | op o args =>
        simp only [evalCompute] at h
        split at h
        · rename_i e1 he1
          simp only [Except.error.injEq] at h
          rw [h] at he1
          have hb' : exprListSize args + remainingCost defs st ≤ fl := by
            simp only [exprSize] at hb
            omega
          exact iha args st hb' he1
        · cases h
    · intro args st hb h
      cases args with
      | nil =>
        simp only [evalComputeArgs] at h
        cases h
      | cons a rest =>
        simp only [evalComputeArgs] at h
        split at h
        · rename_i e1 he1
          simp only [Except.error.injEq] at h
          rw [h] at he1
          have hb' : exprSize a + remainingCost defs st ≤ fl := by
            simp only [exprListSize] at hb
            omega
          exact ihe a st hb' he1
        · rename_i w st1 he1
          split at h
          · rename_i e2 he2
            simp only [Except.error.injEq] at h
            rw [h] at he2
            have hfr := (frame_pack fl).2.1 defs ctx a st w st1 he1
            have hmono := remainingCost_mono defs st st1 hfr.1
              (fun key hk => FrameOk_hasField defs st st1 hfr key hk)
            have hea := exprSize_pos a
            have hb' : exprListSize rest + remainingCost defs st1 ≤ fl := by
              simp only [exprListSize] at hb
              omega
            exact iha rest st1 hb' he2
          · cases h

theorem foldl_cost (defs : List ComputeDefinition) : ∀ n : Nat,
    defs.foldl (fun acc d => acc + 2 + exprSize d.definition) n =
      n + (defs.map (fun d => 2 + exprSize d.definition)).sum := by
  induction defs with
  | nil =>
    intro n
    simp
  | cons d rest ih =>
    intro n
    simp only [List.foldl_cons, ih, List.map_cons, List.sum_cons]
    omega

theorem remainingCost_le (defs : List ComputeDefinition) (st : CState) :
    remainingCost defs st ≤ (defs.map (fun d => 2 + exprSize d.definition)).sum := by
  induction defs with
  | nil => exact le_refl 0
  | cons d rest ih =>
    rw [remainingCost_cons]
    simp only [List.map_cons, List.sum_cons]
    have hterm : (if d.key ∈ st.visiting ∨ hasField st.computedValues d.key = true then 0
        else 2 + exprSize d.definition) ≤ 2 + exprSize d.definition := by
      split
      · exact Nat.zero_le _
      · exact le_refl _
    omega

theorem computeFuel_eq (defs : List ComputeDefinition) :
    computeFuel defs = 1 + (defs.map (fun d => 2 + exprSize d.definition)).sum := by
  rw [computeFuel, foldl_cost defs 0, Nat.zero_add]

theorem computeLoop_fuel (defs : List ComputeDefinition) (ctx : EvaluationContext)
    (pending : List ComputeDefinition) (st : CState) :
    computeLoop defs ctx (computeFuel defs) pending st ≠ .error .fuelExhausted := by
  induction pending generalizing st with
  | nil =>
    intro h
    cases h
  | cons d rest ih =>
    intro h
    simp only [computeLoop] at h
    split at h
    · rename_i e1 he1
      simp only [Except.error.injEq] at h
      rw [h] at he1
      have hle := remainingCost_le defs st
      have hfe := computeFuel_eq defs
      exact (fuel_pack defs ctx (computeFuel defs)).1 d.key st (by omega) he1
    · rename_i w st1 hr
      exact ih st1 h

theorem computeDefinitions_cycle (defs : List ComputeDefinition) (ctx : EvaluationContext)
    (ks : List String) (hcyc : IsComputeCycle defs ctx.computed ks) :
    ∃ k, computeDefinitions defs ctx = .error (.cycle k) ∧
      (definitionMapGet defs k).isSome = true := by
  obtain ⟨hne, hbase, hks⟩ := hcyc
  cases hl : computeLoop defs ctx (computeFuel defs) defs ⟨ctx.computed, []⟩ with
  | ok st =>
    obtain ⟨k0, hk0⟩ := List.exists_mem_of_ne_nil ks hne
    obtain ⟨hdot, d, hd, _⟩ := hks k0 hk0
    obtain ⟨hdmem, hdkey⟩ := definitionMapGet_spec defs k0 d hd
    exact absurd hl (computeLoop_cycle defs ctx ks hks (computeFuel defs) defs
      ⟨ctx.computed, []⟩ hbase ⟨d, hdmem, hdkey ▸ hk0⟩ st)
  | error e =>
    cases e with
    | fuelExhausted => exact absurd hl (computeLoop_fuel defs ctx defs ⟨ctx.computed, []⟩)
    | cycle k =>
      refine ⟨k, ?_, computeLoop_prov defs ctx (computeFuel defs) defs ⟨ctx.computed, []⟩ k hl⟩
      rw [computeDefinitions, hl]
      rfl

/-- C2: when the published compute definitions contain a dependency
cycle (each key stored, un-memoised, referring to `computed.<next>` of
the set), the compute phase fails with the descriptive error naming a
re-entered stored key, the intake request returns the single 400 error
response `"Circular compute dependency detected for <key>"`, and no
ComputedValue rows (nor rule, assignment, plan or audit rows) are
written — only the already-inserted submission row remains. -/
theorem compute_cycle_fails (regexTest : String → String → Bool)
    (studyId participantId submissionTime : String) (freshId : Int)
    (db : EngineDb) (body : IntakeBody) (ks : List String)
    (htpl : db.templateFound = true)
    (hval : (validateAnswers regexTest db.fields body.answers).valid = true)
    (hcyc : IsComputeCycle (publishedComputeDefinitionsList db) [] ks) :
    ∃ k, (definitionMapGet (publishedComputeDefinitionsList db) k).isSome = true ∧
      handleIntakeSubmit regexTest studyId participantId submissionTime freshId db body =
        (.errorResponse ("Circular compute dependency detected for " ++ k),
          { emptyWrites with submissions :=
            [⟨studyId, participantId, body.form_template_id, body.answers,
              submissionTime⟩] }) := by
  obtain ⟨k, hcd, hprov⟩ := computeDefinitions_cycle (publishedComputeDefinitionsList db)
    ⟨body.answers, [], intakeMetadata studyId participantId submissionTime freshId body⟩
    ks hcyc
  refine ⟨k, hprov, ?_⟩
  simp only [handleIntakeSubmit, htpl, hval]
  rw [hcd]
  rfl

theorem compute_cycle_fails_witness :
    ∃ k, (definitionMapGet (publishedComputeDefinitionsList c2Db) k).isSome = true ∧
      handleIntakeSubmit (fun _ _ => false) "s" "p" "t" 7 c2Db c2Body =
        (.errorResponse ("Circular compute dependency detected for " ++ k),
          { emptyWrites with submissions :=
            [⟨"s", "p", c2Body.form_template_id, c2Body.answers, "t"⟩] }) :=
  compute_cycle_fails (fun _ _ => false) "s" "p" "t" 7 c2Db c2Body ["a", "b"] rfl rfl
    ⟨by decide, fun k _ => rfl, by
      intro k hk
      rcases List.mem_cons.mp hk with rfl | hk2
      · exact ⟨by decide, ⟨"a", "number", .var "computed.b"⟩, rfl, "b", by decide, by decide⟩
      · rcases List.mem_cons.mp hk2 with rfl | hk3
        · exact ⟨by decide, ⟨"b", "number", .var "computed.a"⟩, rfl, "a", by decide, by decide⟩
        · exact absurd hk3 (List.not_mem_nil k)⟩
